import Mathlib

/-!
# Verification of the rsbtc ledger core

A shallow embedding of the rsbtc toy-cryptocurrency ledger
(`src/lib/src/types/blockchain.rs`, `src/lib/src/types/block.rs`,
`src/lib/src/types/transaction.rs`, `src/lib/src/network.rs`) and proofs of
the specification claims about it.

Machine integers are modelled as `Nat` (u64, u32, usize, U256) and `Int`
(timestamps, i32); hashes are modelled as `Nat` values below `2 ^ 256`.
The repository files `sha256.rs`, `util.rs` (Merkle root) and `lib.rs`
(constants) are not part of the provided sources; their definitions are
modelled from the specification and marked as such.
-/

namespace RsBtc

/-- Modelled from the spec: constants from the missing `lib.rs`
(`INITIAL_REWARD = 50`). -/
def INITIAL_REWARD : Nat := 50

/-- Modelled from the spec: `HALVING_INTERVAL = 210_000`. -/
def HALVING_INTERVAL : Nat := 210000

/-- Modelled from the spec: `DIFFICULTY_UPDATE_INTERVAL = 50` (the source
spells it `DIFICULTY_UPDATE_INTERVAL`). -/
def DIFICULTY_UPDATE_INTERVAL : Nat := 50

/-- Modelled from the spec: `IDEAL_BLOCK_TIME = 10` seconds. -/
def IDEAL_BLOCK_TIME : Nat := 10

/-- Modelled from the spec: `MIN_TARGET = 2^240`, the largest (easiest)
allowed target and the ceiling for the stored target. -/
def MIN_TARGET : Nat := 2 ^ 240

/-- Modelled from the spec: `MAX_MEMPOOL_TRANSACTION_AGE = 600` seconds. -/
def MAX_MEMPOOL_TRANSACTION_AGE : Nat := 600

/-- The U256 modulus: U256 values are naturals below `2 ^ 256`. -/
def U256_MOD : Nat := 2 ^ 256

/-- `crypto.rs`: a secp256k1 ECDSA signature.  The actual curve arithmetic is
external library code; we use the standard symbolic model: a signature records
the hash it signs (`sigOf`) and the public key of its signer (`signer`), and
verifies under exactly that pair.  Public keys themselves are opaque and
modelled as `Nat`. -/
structure Signature where
  sigOf : Nat
  signer : Nat
deriving DecidableEq, Repr

/-- `crypto.rs` `Signature::verify`: ECDSA verification of `output_hash`
under `public_key`, in the symbolic model. -/
def Signature.verify (s : Signature) (output_hash : Nat) (public_key : Nat) : Bool :=
  s.sigOf == output_hash && s.signer == public_key

/-- `transaction.rs` `TransactionOutput { value: u64, unique_id: Uuid,
pubkey: PublicKey }`; the UUID is opaque 128-bit data modelled as `Nat`. -/
structure TransactionOutput where
  value : Nat
  unique_id : Nat
  pubkey : Nat
deriving DecidableEq, Repr

/-- `transaction.rs` `TransactionInput { prev_tx_output_hash: Hash,
signature: Signature }`. -/
structure TransactionInput where
  prev_tx_output_hash : Nat
  signature : Signature
deriving DecidableEq, Repr

/-- `transaction.rs` `Transaction { inputs, outputs }`. -/
structure Transaction where
  inputs : List TransactionInput
  outputs : List TransactionOutput
deriving DecidableEq, Repr

/-- `block.rs` `BlockHeader { timestamp, nonce, prev_block_hash, merkle_root,
target }`.  The timestamp is a `chrono::DateTime` modelled as an integer
number of seconds. -/
structure BlockHeader where
  timestamp : Int
  nonce : Nat
  prev_block_hash : Nat
  merkle_root : Nat
  target : Nat
deriving DecidableEq, Repr

/-- `block.rs` `Block { header, transactions }`. -/
structure Block where
  header : BlockHeader
  transactions : List Transaction
deriving DecidableEq, Repr

/-! ## The hash model

Modelled from the spec: `Hash::hash(x)` is SHA-256 over the canonical CBOR
encoding of `x` (`sha256.rs` is not among the provided sources).  SHA-256
over an injective encoding is modelled as an injective pairing of the
structure's fields, tagged by the type of the hashed value (distinct types
have disjoint encodings, hence disjoint hashes) and reduced mod `2 ^ 256`.
Because the tag is kept in the low bits and `2 ^ 256` is divisible by 8,
hashes of values of distinct types are always distinct, and no hash is
`Hash::zero() = 0`. -/

/-- An injective encoding of integers into naturals. -/
def encInt (i : Int) : Nat :=
  if 0 ≤ i then 2 * i.toNat else 2 * (-i).toNat - 1

/-- An injective encoding of lists of naturals. -/
def encListN (l : List Nat) : Nat :=
  l.foldr (fun a acc => Nat.pair a acc + 1) 0

def encOutput (o : TransactionOutput) : Nat :=
  Nat.pair o.value (Nat.pair o.unique_id o.pubkey)

def encSig (s : Signature) : Nat :=
  Nat.pair s.sigOf s.signer

def encInput (i : TransactionInput) : Nat :=
  Nat.pair i.prev_tx_output_hash (encSig i.signature)

def encTx (t : Transaction) : Nat :=
  Nat.pair (encListN (t.inputs.map encInput)) (encListN (t.outputs.map encOutput))

def encHeader (h : BlockHeader) : Nat :=
  Nat.pair (encInt h.timestamp)
    (Nat.pair h.nonce (Nat.pair h.prev_block_hash (Nat.pair h.merkle_root h.target)))

def encBlock (b : Block) : Nat :=
  Nat.pair (encHeader b.header) (encListN (b.transactions.map encTx))

/-- Modelled from the spec: `Hash::zero()`, the all-zero genesis sentinel. -/
def hashZero : Nat := 0

/-- Modelled from the spec: the hash of a `TransactionOutput`
(`TransactionOutput::hash`). -/
def hashOutput (o : TransactionOutput) : Nat := (8 * encOutput o + 1) % U256_MOD

/-- Modelled from the spec: the hash of a `Transaction` (`Transaction::hash`). -/
def hashTx (t : Transaction) : Nat := (8 * encTx t + 2) % U256_MOD

/-- Modelled from the spec: the hash of a `BlockHeader` (`BlockHeader::hash`). -/
def hashHeader (h : BlockHeader) : Nat := (8 * encHeader h + 3) % U256_MOD

/-- Modelled from the spec: the hash of a whole `Block` (`Block::hash`,
which hashes the entire block value, header and transactions). -/
def hashBlock (b : Block) : Nat := (8 * encBlock b + 4) % U256_MOD

/-- Modelled from the spec: hashing the concatenation of two hashes, the
combining step of the Merkle tree. -/
def hashPairNode (a b : Nat) : Nat := (8 * Nat.pair a b + 5) % U256_MOD

/-- Modelled from the spec: `matches_target` interprets the hash as a
256-bit unsigned integer and returns `hash ≤ target`. -/
def matchesTarget (hash target : Nat) : Bool := hash ≤ target

/-- Modelled from the spec, `MerkleRoot::calculate` pairing pass: hash
pairs of adjacent elements, duplicating the last element of an odd-length
list. -/
def merkleStep : List Nat → List Nat
  | [] => []
  | [a] => [hashPairNode a a]
  | a :: b :: rest => hashPairNode a b :: merkleStep rest

/-- The Merkle reduction loop, with explicit fuel (each pass at least
halves a list of length ≥ 2, so fuel `n` suffices for lists of length `n`). -/
def merkleLoopAux : Nat → List Nat → Nat
  | _, [] => 0
  | _, [a] => a
  | 0, a :: _ :: _ => a
  | fuel + 1, a :: b :: rest => merkleLoopAux fuel (merkleStep (a :: b :: rest))

/-- Modelled from the spec: `MerkleRoot::calculate(txs)` — hash each
transaction, then pairwise combine (duplicating the last element at odd
lengths) until one element remains; the empty list yields the zero root. -/
def merkleCalculate (txs : List Transaction) : Nat :=
  merkleLoopAux txs.length (txs.map hashTx)

/-! ## Association-list model of `HashMap` -/

/-- Lookup in an association list keyed by hashes (`HashMap::get`). -/
def aget {β : Type} (m : List (Nat × β)) (k : Nat) : Option β :=
  (m.find? (fun e => e.1 == k)).map (fun e => e.2)

/-- `HashMap::contains_key`. -/
def acontains {β : Type} (m : List (Nat × β)) (k : Nat) : Bool :=
  (aget m k).isSome

/-- `HashMap::remove`. -/
def aremove {β : Type} (m : List (Nat × β)) (k : Nat) : List (Nat × β) :=
  m.filter (fun e => ¬ e.1 == k)

/-- `HashMap::insert` (overwrites any previous binding of the key). -/
def ains {β : Type} (m : List (Nat × β)) (k : Nat) (v : β) : List (Nat × β) :=
  (k, v) :: aremove m k

/-- The UTXO map: `HashMap<Hash, (bool, TransactionOutput)>`. -/
abbrev UtxoMap := List (Nat × (Bool × TransactionOutput))

/-- `utxos.entry(k).and_modify(|(marked, _)| *marked = b)`: set the marked
flag of an existing entry, leaving absent keys absent. -/
def alSetMark (m : UtxoMap) (k : Nat) (b : Bool) : UtxoMap :=
  m.map (fun e => if e.1 == k then (e.1, (b, e.2.2)) else e)

/-- `blockchain.rs` `BlockChain { utxos, target, blocks, mempool }`.  Mempool
entries carry their `DateTime<Utc>` arrival time as an integer. -/
structure BlockChain where
  utxos : UtxoMap
  target : Nat
  blocks : List Block
  mempool : List (Int × Transaction)
deriving DecidableEq, Repr

/-- `BlockChain::new()`. -/
def BlockChain.new : BlockChain :=
  { utxos := [], target := MIN_TARGET, blocks := [], mempool := [] }

/-- `error.rs` `BtcError` (modelled from the spec's error taxonomy; the file
is not among the provided sources). -/
inductive BtcError where
  | InvalidBlock
  | InvalidMerkleRoot
  | InvalidTransaction
  | InvalidSignature
deriving DecidableEq, Repr

/-- Sum of the `value` fields of a transaction's outputs. -/
def outSum (t : Transaction) : Nat := (t.outputs.map (fun o => o.value)).sum

/-! ## `block.rs`: verification -/

/-- `calculate_miner_fees`, inner loop over one transaction's inputs:
look up each referenced UTXO (missing → `InvalidTransaction`), reject a
reference already seen anywhere in the block, record it in the `inputs`
map. -/
def feeInputsLoop :
    List TransactionInput → List (Nat × TransactionOutput) → UtxoMap →
    Except BtcError (List (Nat × TransactionOutput))
  | [], acc, _ => .ok acc
  | inp :: rest, acc, utxos =>
    match aget utxos inp.prev_tx_output_hash with
    | none => .error .InvalidTransaction
    | some pv =>
      if acontains acc inp.prev_tx_output_hash then .error .InvalidTransaction
      else feeInputsLoop rest (ains acc inp.prev_tx_output_hash pv.2) utxos

/-- `calculate_miner_fees`, inner loop over one transaction's outputs:
reject duplicate output hashes across the block, record each output in the
`outputs` map keyed by its hash. -/
def feeOutputsLoop :
    List TransactionOutput → List (Nat × TransactionOutput) →
    Except BtcError (List (Nat × TransactionOutput))
  | [], acc => .ok acc
  | o :: rest, acc =>
    if acontains acc (hashOutput o) then .error .InvalidTransaction
    else feeOutputsLoop rest (ains acc (hashOutput o) o)

/-- `calculate_miner_fees`, outer loop over the non-coinbase transactions,
building the `inputs` and `outputs` maps. -/
def feeMapsLoop :
    List Transaction → List (Nat × TransactionOutput) → List (Nat × TransactionOutput) →
    UtxoMap →
    Except BtcError (List (Nat × TransactionOutput) × List (Nat × TransactionOutput))
  | [], accI, accO, _ => .ok (accI, accO)
  | tx :: rest, accI, accO, utxos =>
    match feeInputsLoop tx.inputs accI utxos with
    | .error e => .error e
    | .ok accI2 =>
      match feeOutputsLoop tx.outputs accO with
      | .error e => .error e
      | .ok accO2 => feeMapsLoop rest accI2 accO2 utxos

/-- Sum of the values stored in one of the fee maps. -/
def mvalSum (m : List (Nat × TransactionOutput)) : Nat :=
  (m.map (fun e => e.2.value)).sum

/-- `Block::calculate_miner_fees`: build the deduplicating input/output maps
over all non-coinbase transactions, then return Σinputs − Σoutputs.  The
Rust subtraction is on `u64` (underflow panics in debug builds); `Nat`
subtraction truncates instead, and claims relying on the value hypothesise
Σinputs ≥ Σoutputs. -/
def Block.calculate_miner_fees (b : Block) (utxos : UtxoMap) : Except BtcError Nat :=
  match feeMapsLoop b.transactions.tail [] [] utxos with
  | .error e => .error e
  | .ok maps => .ok (mvalSum maps.1 - mvalSum maps.2)

/-- The reward formula of `Block::verify_coinbase_transaction`:
`INITIAL_REWARD * 10^8 / 2^(height / HALVING_INTERVAL)`. -/
def blockReward (height : Nat) : Nat :=
  INITIAL_REWARD * 10 ^ 8 / 2 ^ (height / HALVING_INTERVAL)

/-- `Block::verify_coinbase_transaction`.  The Rust code indexes
`transactions[0]`, which panics on an empty list; both callers establish
non-emptiness first, and claims about this function hypothesise it. -/
def Block.verify_coinbase_transaction (b : Block) (height : Nat) (utxos : UtxoMap) :
    Option BtcError :=
  match b.transactions with
  | [] => some .InvalidTransaction
  | cb :: _ =>
    if cb.inputs ≠ [] then some .InvalidTransaction
    else if cb.outputs = [] then some .InvalidTransaction
    else
      match b.calculate_miner_fees utxos with
      | .error e => some e
      | .ok fees =>
        if outSum cb ≠ blockReward height + fees then some .InvalidTransaction
        else none

/-- `verify_transactions`, inner loop over one non-coinbase transaction's
inputs: the referenced UTXO must exist, must not be spent twice within the
block (the `inputs` map is shared across transactions), and the signature
must verify against the UTXO's public key; accumulate the input value. -/
def vtInputsLoop :
    List TransactionInput → Nat → List (Nat × TransactionOutput) → UtxoMap →
    Except BtcError (Nat × List (Nat × TransactionOutput))
  | [], acc, seen, _ => .ok (acc, seen)
  | inp :: rest, acc, seen, utxos =>
    match aget utxos inp.prev_tx_output_hash with
    | none => .error .InvalidTransaction
    | some pv =>
      if acontains seen inp.prev_tx_output_hash then .error .InvalidTransaction
      else if ¬ inp.signature.verify inp.prev_tx_output_hash pv.2.pubkey then
        .error .InvalidSignature
      else vtInputsLoop rest (acc + pv.2.value) (ains seen inp.prev_tx_output_hash pv.2) utxos

/-- `verify_transactions`, outer loop over the non-coinbase transactions:
check each one's inputs and require accumulated input value ≥ output value. -/
def vtRestLoop : List Transaction → List (Nat × TransactionOutput) → UtxoMap → Option BtcError
  | [], _, _ => none
  | tx :: rest, seen, utxos =>
    match vtInputsLoop tx.inputs 0 seen utxos with
    | .error e => some e
    | .ok r =>
      if r.1 < outSum tx then some .InvalidTransaction
      else vtRestLoop rest r.2 utxos

/-- `Block::verify_transactions(predicted_block_height, utxos)`. -/
def Block.verify_transactions (b : Block) (height : Nat) (utxos : UtxoMap) : Option BtcError :=
  if b.transactions = [] then some .InvalidTransaction
  else
    match b.verify_coinbase_transaction height utxos with
    | some e => some e
    | none => vtRestLoop b.transactions.tail [] utxos

/-! ## `blockchain.rs`: the ledger operations -/

/-- One transaction's effect on the UTXO map during `rebuild_utxos`:
remove the entries for its inputs, then insert each output under the
transaction's hash key (so all outputs of one transaction collide on the
same key and the last one wins). -/
def applyTxUtxos (m : UtxoMap) (tx : Transaction) : UtxoMap :=
  tx.outputs.foldl (fun acc o => ains acc (hashTx tx) (false, o))
    (tx.inputs.foldl (fun acc inp => aremove acc inp.prev_tx_output_hash) m)

/-- Replay a list of transactions over a starting UTXO map. -/
def replayTxs (m : UtxoMap) : List Transaction → UtxoMap
  | [] => m
  | tx :: rest => replayTxs (applyTxUtxos m tx) rest

/-- All transactions of a chain, in block order. -/
def allTxs (blocks : List Block) : List Transaction :=
  blocks.flatMap (fun b => b.transactions)

/-- `BlockChain::rebuild_utxos`: replay every block, in order, over the
*current* UTXO map (the Rust code does not clear the map first). -/
def BlockChain.rebuild_utxos (s : BlockChain) : BlockChain :=
  { s with utxos := replayTxs s.utxos (allTxs s.blocks) }

/-- The replay described by the specification's words: starting from an
*empty* map, replay all blocks in order, removing each transaction's input
entries and inserting its outputs under the transaction's hash with
`marked = false`. -/
def specReplay (blocks : List Block) : UtxoMap :=
  replayTxs [] (allTxs blocks)

/-- U256 multiplication by 4 with saturating arithmetic (the spec: U256 uses
saturating arithmetic for retargeting). -/
def satMul4 (t : Nat) : Nat := min (4 * t) (U256_MOD - 1)

/-- The elapsed time of the retargeting window:
`blocks.last().timestamp − blocks[len − DIFFICULTY_UPDATE_INTERVAL].timestamp`
in seconds (`0` stands in for an out-of-range index, on which Rust would
panic; callers only evaluate this at `len ≥ DIFFICULTY_UPDATE_INTERVAL`). -/
def adjTimeDiff (s : BlockChain) : Int :=
  ((s.blocks.getLast?.map (fun b => b.header.timestamp)).getD 0) -
    (((s.blocks[s.blocks.length - DIFICULTY_UPDATE_INTERVAL]?).map
      (fun b => b.header.timestamp)).getD 0)

/-- The unclamped retarget value `target * elapsed / (IDEAL_BLOCK_TIME *
DIFFICULTY_UPDATE_INTERVAL)`, truncated toward zero. -/
def adjRawTarget (s : BlockChain) : Nat :=
  s.target * (adjTimeDiff s).toNat / (IDEAL_BLOCK_TIME * DIFICULTY_UPDATE_INTERVAL)

/-- The retarget value clamped into `[target/4, saturating(target*4)]`. -/
def adjClamped (s : BlockChain) : Nat :=
  if adjRawTarget s < s.target / 4 then s.target / 4
  else if satMul4 s.target < adjRawTarget s then satMul4 s.target
  else adjRawTarget s

/-- `BlockChain::try_adjust_target`.  `none` models the two `expect` panics:
a negative elapsed time (the decimal string then fails `U256::from_str_radix`)
and an adjusted value ≥ 2^256 (overflow).  The `BigDecimal` multiplication
`target * (elapsed / 500)` is modelled as the exact truncated quotient
`target * elapsed / 500`; the library's 100-digit division precision cannot
shift the clamped result out of the proved bounds. -/
def BlockChain.try_adjust_target (s : BlockChain) : Option BlockChain :=
  if s.blocks.isEmpty then some s
  else if s.blocks.length % DIFICULTY_UPDATE_INTERVAL ≠ 0 then some s
  else if adjTimeDiff s < 0 then none
  else if U256_MOD ≤ adjRawTarget s then none
  else some { s with target := min (adjClamped s) MIN_TARGET }

/-- The `add_block` validation chain against a non-empty chain's last
block: previous-hash linkage (against the hash of the whole last block),
proof of work against the header's own target, Merkle-root recomputation,
strict timestamp growth, then transaction verification. -/
def addBlockValidationFull (s : BlockChain) (block : Block) (last_block : Block) :
    Option BtcError :=
  if block.header.prev_block_hash ≠ hashBlock last_block then some .InvalidBlock
  else if ¬ matchesTarget (hashHeader block.header) block.header.target then
    some .InvalidBlock
  else if merkleCalculate block.transactions ≠ block.header.merkle_root then
    some .InvalidMerkleRoot
  else if block.header.timestamp ≤ last_block.header.timestamp then some .InvalidBlock
  else block.verify_transactions s.blocks.length s.utxos

def addBlockValidation (s : BlockChain) (block : Block) : Option BtcError :=
  match s.blocks.getLast? with
  | none =>
    if block.header.prev_block_hash ≠ hashZero then some .InvalidBlock else none
  | some last_block => addBlockValidationFull s block last_block

/-- The state after the accepting tail of `add_block`, before
`try_adjust_target`: mempool entries whose hash appears among the block's
transactions are dropped and the block is appended. -/
def addBlockCommit (s : BlockChain) (block : Block) : BlockChain :=
  { s with
    mempool := s.mempool.filter
      (fun e => ¬ (block.transactions.map hashTx).contains (hashTx e.2)),
    blocks := s.blocks ++ [block] }

/-- `BlockChain::add_block`.  The result pairs the post-call state with the
returned error, faithful to the Rust method, which mutates nothing before
any of its early error returns; `none` models a panic inside
`try_adjust_target`.  On acceptance: drop every mempool entry whose hash
appears among the block's transactions, append the block, adjust the
target.  The UTXO set is not updated. -/
def BlockChain.add_block (s : BlockChain) (block : Block) :
    Option (BlockChain × Option BtcError) :=
  match addBlockValidation s block with
  | some e => some (s, some e)
  | none => (addBlockCommit s block).try_adjust_target.map (fun s2 => (s2, none))

/-- `add_to_mempool`, first loop: every input's referenced UTXO must exist
and no input may repeat within the transaction. -/
def mempoolInputsOk : List TransactionInput → List Nat → UtxoMap → Bool
  | [], _, _ => true
  | inp :: rest, known, utxos =>
    acontains utxos inp.prev_tx_output_hash &&
    !(known.contains inp.prev_tx_output_hash) &&
    mempoolInputsOk rest (inp.prev_tx_output_hash :: known) utxos

/-- Unmark the UTXOs referenced by a list of inputs. -/
def unmarkInputs (m : UtxoMap) (ins : List TransactionInput) : UtxoMap :=
  ins.foldl (fun acc inp => alSetMark acc inp.prev_tx_output_hash false) m

/-- `add_to_mempool`, conflict-resolution step for one input: if its UTXO is
currently marked, search the mempool for a transaction whose *outputs* hash
to the contested key; if found, unmark that transaction's inputs and remove
it, otherwise just unmark the contested UTXO. -/
def evictStep (st : UtxoMap × List (Int × Transaction)) (inp : TransactionInput) :
    UtxoMap × List (Int × Transaction) :=
  match aget st.1 inp.prev_tx_output_hash with
  | some (true, _) =>
    match st.2.findIdx?
        (fun e => e.2.outputs.any (fun o => hashOutput o == inp.prev_tx_output_hash)) with
    | some idx =>
      match st.2[idx]? with
      | some e => (unmarkInputs st.1 e.2.inputs, st.2.eraseIdx idx)
      | none => st
    | none => (alSetMark st.1 inp.prev_tx_output_hash false, st.2)
  | _ => st

/-- Sum of the referenced UTXO values of a list of inputs (`none` if a
referenced UTXO is missing, where Rust would panic on `.expect`). -/
def inputsValueSum (utxos : UtxoMap) : List TransactionInput → Option Nat
  | [] => some 0
  | inp :: rest =>
    match aget utxos inp.prev_tx_output_hash, inputsValueSum utxos rest with
    | some v, some a => some (v.2.value + a)
    | _, _ => none

/-- Total value of the UTXOs referenced by a transaction's inputs. -/
def txInputValues (utxos : UtxoMap) (tx : Transaction) : Option Nat :=
  inputsValueSum utxos tx.inputs

/-- Mark the UTXOs referenced by a list of inputs. -/
def markInputs (m : UtxoMap) (ins : List TransactionInput) : UtxoMap :=
  ins.foldl (fun acc inp => alSetMark acc inp.prev_tx_output_hash true) m

/-- The mempool sort key: miner fee Σinputs − Σoutputs (u64 subtraction). -/
def feeKey (utxos : UtxoMap) (tx : Transaction) : Option Nat :=
  (txInputValues utxos tx).map (fun v => v - outSum tx)

/-- Stable insertion into a fee-sorted list: an element goes after all
entries of equal or smaller key, matching a stable ascending sort. -/
def insSorted (x : Nat × (Int × Transaction)) :
    List (Nat × (Int × Transaction)) → List (Nat × (Int × Transaction))
  | [] => [x]
  | y :: ys => if y.1 ≤ x.1 then y :: insSorted x ys else x :: y :: ys

/-- Attach the sort key to every mempool entry (`none` when any entry
references a missing UTXO, where the Rust key closure panics). -/
def keyMempool (utxos : UtxoMap) : List (Int × Transaction) →
    Option (List (Nat × (Int × Transaction)))
  | [] => some []
  | e :: rest =>
    match feeKey utxos e.2, keyMempool utxos rest with
    | some k, some ks => some ((k, e) :: ks)
    | _, _ => none

/-- `mempool.sort_by_key(fee)`: a stable ascending sort by miner fee.
`none` models the panic when a mempool entry references a missing UTXO. -/
def sortMempool (utxos : UtxoMap) (mp : List (Int × Transaction)) :
    Option (List (Int × Transaction)) :=
  (keyMempool utxos mp).map
    (fun keyed => (keyed.foldl (fun acc x => insSorted x acc) []).map (fun e => e.2))

/-- The UTXO map and mempool after `add_to_mempool`'s conflict-resolution
loop over the new transaction's inputs. -/
def evictState (s : BlockChain) (tx : Transaction) : UtxoMap × List (Int × Transaction) :=
  tx.inputs.foldl evictStep (s.utxos, s.mempool)

/-- `BlockChain::add_to_mempool`.  Result: post-call state paired with the
returned error (the eviction loop's mutations survive an error return from
the value check, as in the Rust code); `none` models a `.expect` panic. -/
def BlockChain.add_to_mempool (s : BlockChain) (now : Int) (tx : Transaction) :
    Option (BlockChain × Option BtcError) :=
  if ¬ mempoolInputsOk tx.inputs [] s.utxos then some (s, some .InvalidTransaction)
  else
    match txInputValues (evictState s tx).1 tx with
    | none => none
    | some allInputs =>
      if allInputs < outSum tx then
        some ({ s with utxos := (evictState s tx).1, mempool := (evictState s tx).2 },
          some .InvalidTransaction)
      else
        match sortMempool (markInputs (evictState s tx).1 tx.inputs)
            ((evictState s tx).2 ++ [(now, tx)]) with
        | none => none
        | some mp3 =>
          some ({ s with
                  utxos := markInputs (evictState s tx).1 tx.inputs,
                  mempool := mp3 }, none)

/-- `BlockChain::cleanup_mempool`: drop entries older than
`MAX_MEMPOOL_TRANSACTION_AGE` seconds and unmark their input UTXOs. -/
def BlockChain.cleanup_mempool (s : BlockChain) (now : Int) : BlockChain :=
  let isOld : Int × Transaction → Bool :=
    fun e => (MAX_MEMPOOL_TRANSACTION_AGE : Int) < now - e.1
  let hashes :=
    (s.mempool.filter isOld).flatMap (fun e => e.2.inputs.map (fun i => i.prev_tx_output_hash))
  { s with
    mempool := s.mempool.filter (fun e => ¬ isOld e),
    utxos := hashes.foldl (fun acc h => alSetMark acc h false) s.utxos }

/-- `BlockChain::block_height`. -/
def BlockChain.block_height (s : BlockChain) : Nat := s.blocks.length

/-- `BlockChain::calculate_block_reward`:
`(INITIAL_REWARD * 10^8) >> (height / HALVING_INTERVAL)`. -/
def BlockChain.calculate_block_reward (s : BlockChain) : Nat :=
  INITIAL_REWARD * 10 ^ 8 >>> (s.block_height / HALVING_INTERVAL)

/-! ## Reachable ledger states

The ledger operations exposed by the node: `add_block` (also applied when a
rejected block leaves the state unchanged), `add_to_mempool` (whose failure
can still mutate the state), `cleanup_mempool` and `rebuild_utxos`.
Time-dependent operations carry their wall-clock instant as a parameter. -/

inductive Op where
  | addBlockOp (b : Block)
  | addTxOp (now : Int) (tx : Transaction)
  | cleanupOp (now : Int)
  | rebuildOp

/-- The state after one ledger operation (`none` when the operation
panics). -/
def applyOp (s : BlockChain) : Op → Option BlockChain
  | .addBlockOp b => (s.add_block b).map (fun r => r.1)
  | .addTxOp now tx => (s.add_to_mempool now tx).map (fun r => r.1)
  | .cleanupOp now => some (s.cleanup_mempool now)
  | .rebuildOp => some s.rebuild_utxos

/-- States reachable from `BlockChain::new()` by ledger operations. -/
inductive Reachable : BlockChain → Prop where
  | init : Reachable BlockChain.new
  | step {s s2 : BlockChain} (op : Op) :
      Reachable s → applyOp s op = some s2 → Reachable s2

/-! ## Association-list lemmas -/

theorem aget_cons {β : Type} (k1 : Nat) (v : β) (m : List (Nat × β)) (k : Nat) :
    aget ((k1, v) :: m) k = if k1 = k then some v else aget m k := by
  by_cases h : k1 = k <;> simp [aget, List.find?_cons, h]

theorem aget_aremove {β : Type} (m : List (Nat × β)) (k k2 : Nat) :
    aget (aremove m k) k2 = if k = k2 then none else aget m k2 := by
  induction m with
  | nil => by_cases h : k = k2 <;> simp [aremove, aget, h]
  | cons e rest ih =>
    obtain ⟨k1, v⟩ := e
    by_cases h1 : k1 = k
    · subst h1
      by_cases h2 : k1 = k2
      · subst h2
        simpa [aremove, List.filter_cons, aget_cons] using ih
      · simp [aremove, List.filter_cons, aget_cons, h2, aremove] at ih ⊢
        exact ih
    · by_cases h2 : k1 = k2
      · subst h2
        have hne : ¬ k = k1 := fun h => h1 h.symm
        simp [aremove, List.filter_cons, h1, aget_cons, hne]
      · simp [aremove, List.filter_cons, h1, aget_cons, h2, aremove] at ih ⊢
        exact ih

theorem aget_ains {β : Type} (m : List (Nat × β)) (k : Nat) (v : β) (k2 : Nat) :
    aget (ains m k v) k2 = if k = k2 then some v else aget m k2 := by
  by_cases h : k = k2 <;> simp [ains, aget_cons, aget_aremove, h]

theorem aget_alSetMark (m : UtxoMap) (k : Nat) (b : Bool) (k2 : Nat) :
    aget (alSetMark m k b) k2 =
      if k = k2 then (aget m k2).map (fun v => (b, v.2)) else aget m k2 := by
  induction m with
  | nil => by_cases h : k = k2 <;> simp [alSetMark, aget, h]
  | cons e rest ih =>
    obtain ⟨k1, v⟩ := e
    by_cases h1 : k1 = k
    · subst h1
      by_cases h2 : k1 = k2
      · subst h2
        simp [alSetMark, aget_cons]
      · have hne : ¬ k1 = k2 := h2
        simp [alSetMark, aget_cons, hne] at ih ⊢
        exact ih
    · by_cases h2 : k1 = k2
      · subst h2
        have hne : ¬ k = k1 := fun h => h1 h.symm
        simp [alSetMark, aget_cons, h1, hne]
      · simp [alSetMark, aget_cons, h1, h2] at ih ⊢
        exact ih

theorem aget_isSome_alSetMark (m : UtxoMap) (k : Nat) (b : Bool) (k2 : Nat) :
    (aget (alSetMark m k b) k2).isSome = (aget m k2).isSome := by
  rw [aget_alSetMark]
  by_cases h : k = k2 <;> simp [h]

/-! ## Structural lemmas about the ledger operations -/

/-- `try_adjust_target` changes at most the target. -/
theorem try_adjust_fields {s s2 : BlockChain} (h : s.try_adjust_target = some s2) :
    s2.blocks = s.blocks ∧ s2.utxos = s.utxos ∧ s2.mempool = s.mempool := by
  unfold BlockChain.try_adjust_target at h
  split at h
  · cases h; exact ⟨rfl, rfl, rfl⟩
  · split at h
    · cases h; exact ⟨rfl, rfl, rfl⟩
    · split at h
      · cases h
      · split at h
        · cases h
        · cases h; exact ⟨rfl, rfl, rfl⟩

/-- `try_adjust_target` is a no-op unless the chain length is a positive
multiple of `DIFFICULTY_UPDATE_INTERVAL`. -/
theorem try_adjust_noop (s : BlockChain)
    (h : ¬ (0 < s.blocks.length ∧ s.blocks.length % DIFICULTY_UPDATE_INTERVAL = 0)) :
    s.try_adjust_target = some s := by
  unfold BlockChain.try_adjust_target
  rcases Nat.eq_zero_or_pos s.blocks.length with h0 | hpos
  · have : s.blocks = [] := List.length_eq_zero.mp h0
    simp [this]
  · have hne : s.blocks.length % DIFICULTY_UPDATE_INTERVAL ≠ 0 := by tauto
    have hemp : s.blocks.isEmpty = false := by
      cases hb : s.blocks with
      | nil => rw [hb] at hpos; simp at hpos
      | cons a l => simp
    simp [hemp, hne]

/-- Every error produced by `feeInputsLoop` is `InvalidTransaction`. -/
theorem feeInputsLoop_error (ins : List TransactionInput)
    (acc : List (Nat × TransactionOutput)) (utxos : UtxoMap) (e : BtcError)
    (h : feeInputsLoop ins acc utxos = .error e) : e = .InvalidTransaction := by
  induction ins generalizing acc with
  | nil => simp [feeInputsLoop] at h
  | cons inp rest ih =>
    rw [feeInputsLoop] at h
    split at h
    · cases h; rfl
    · split at h
      · cases h; rfl
      · exact ih _ h

/-- Every error produced by `feeOutputsLoop` is `InvalidTransaction`. -/
theorem feeOutputsLoop_error (outs : List TransactionOutput)
    (acc : List (Nat × TransactionOutput)) (e : BtcError)
    (h : feeOutputsLoop outs acc = .error e) : e = .InvalidTransaction := by
  induction outs generalizing acc with
  | nil => simp [feeOutputsLoop] at h
  | cons o rest ih =>
    rw [feeOutputsLoop] at h
    split at h
    · cases h; rfl
    · exact ih _ h

/-- Every error produced by `feeMapsLoop` is `InvalidTransaction`. -/
theorem feeMapsLoop_error (txs : List Transaction)
    (accI accO : List (Nat × TransactionOutput)) (utxos : UtxoMap) (e : BtcError)
    (h : feeMapsLoop txs accI accO utxos = .error e) : e = .InvalidTransaction := by
  induction txs generalizing accI accO with
  | nil => simp [feeMapsLoop] at h
  | cons tx rest ih =>
    rw [feeMapsLoop] at h
    split at h
    · rename_i e2 hi
      cases h
      exact feeInputsLoop_error _ _ _ _ hi
    · split at h
      · rename_i e2 ho
        cases h
        exact feeOutputsLoop_error _ _ _ ho
      · exact ih _ _ h

/-- Every error produced by `calculate_miner_fees` is `InvalidTransaction`. -/
theorem calculate_miner_fees_error (b : Block) (utxos : UtxoMap) (e : BtcError)
    (h : b.calculate_miner_fees utxos = .error e) : e = .InvalidTransaction := by
  unfold Block.calculate_miner_fees at h
  split at h
  · rename_i e2 hm
    cases h
    exact feeMapsLoop_error _ _ _ _ _ hm
  · cases h

/-- Every error produced by `verify_coinbase_transaction` is
`InvalidTransaction`. -/
theorem verify_coinbase_error (b : Block) (height : Nat) (utxos : UtxoMap) (e : BtcError)
    (h : b.verify_coinbase_transaction height utxos = some e) : e = .InvalidTransaction := by
  unfold Block.verify_coinbase_transaction at h
  split at h
  · cases h; rfl
  · split at h
    · cases h; rfl
    · split at h
      · cases h; rfl
      · split at h
        · rename_i e2 hfees
          cases h
          exact calculate_miner_fees_error _ _ _ hfees
        · split at h
          · cases h; rfl
          · cases h

/-- Every error produced by `vtInputsLoop` is `InvalidTransaction` or
`InvalidSignature`. -/
theorem vtInputsLoop_error (ins : List TransactionInput) (acc : Nat)
    (seen : List (Nat × TransactionOutput)) (utxos : UtxoMap) (e : BtcError)
    (h : vtInputsLoop ins acc seen utxos = .error e) :
    e = .InvalidTransaction ∨ e = .InvalidSignature := by
  induction ins generalizing acc seen with
  | nil => simp [vtInputsLoop] at h
  | cons inp rest ih =>
    rw [vtInputsLoop] at h
    split at h
    · cases h; exact Or.inl rfl
    · split at h
      · cases h; exact Or.inl rfl
      · split at h
        · cases h; exact Or.inr rfl
        · exact ih _ _ h

/-- Rejection leaves the state untouched: `add_block` performs no mutation
before any of its early error returns. -/
theorem add_block_reject {s : BlockChain} {b : Block} {e : BtcError}
    (h : addBlockValidation s b = some e) : s.add_block b = some (s, some e) := by
  unfold BlockChain.add_block
  rw [h]

/-- On a non-empty chain the validation reduces to the full check chain. -/
theorem addBlockValidation_nonempty {s : BlockChain} {b last : Block}
    (hlast : s.blocks.getLast? = some last) :
    addBlockValidation s b = addBlockValidationFull s b last := by
  unfold addBlockValidation
  rw [hlast]

/-- On an empty chain the validation is just the genesis gate. -/
theorem addBlockValidation_empty {s : BlockChain} {b : Block}
    (hlast : s.blocks.getLast? = none) :
    addBlockValidation s b =
      (if b.header.prev_block_hash ≠ hashZero then some .InvalidBlock else none) := by
  unfold addBlockValidation
  rw [hlast]

/-- Every error produced by `verify_transactions` is `InvalidTransaction`
or `InvalidSignature`. -/
theorem verify_transactions_error (b : Block) (height : Nat) (utxos : UtxoMap) (e : BtcError)
    (h : b.verify_transactions height utxos = some e) :
    e = .InvalidTransaction ∨ e = .InvalidSignature := by
  unfold Block.verify_transactions at h
  split at h
  · cases h; exact Or.inl rfl
  · split at h
    · rename_i e2 hcb
      cases h
      exact Or.inl (verify_coinbase_error _ _ _ _ hcb)
    · revert h
      generalize b.transactions.tail = txs
      generalize ([] : List (Nat × TransactionOutput)) = seen
      induction txs generalizing seen with
      | nil => intro h; simp [vtRestLoop] at h
      | cons tx rest ih =>
        intro h
        rw [vtRestLoop] at h
        split at h
        · rename_i e2 hin
          cases h
          exact vtInputsLoop_error _ _ _ _ _ hin
        · split at h
          · cases h; exact Or.inl rfl
          · exact ih _ h

/-! ## Concrete ledger states

A small reachable history used by witnesses and counterexamples: a genesis
block `gBlock` carrying one transaction `txT` (the genesis gate validates
nothing, so `txT` needs no coinbase shape), a rebuild, a mempool
transaction `txA` spending `txT`'s output, and a second mined block. -/

def outT : TransactionOutput := ⟨100, 11, 7⟩

def txT : Transaction := { inputs := [], outputs := [outT] }

def gBlock : Block := { header := ⟨0, 0, 0, 0, 0⟩, transactions := [txT] }

/-- The UTXO key of `txT`'s output: the hash of the producing transaction. -/
def u0 : Nat := hashTx txT

/-- The chain after accepting `gBlock` from `BlockChain::new()`. -/
def s1val : BlockChain :=
  { utxos := [], target := MIN_TARGET, blocks := [gBlock], mempool := [] }

/-- `s1val` after `rebuild_utxos`. -/
def s2val : BlockChain :=
  { utxos := [(u0, (false, outT))], target := MIN_TARGET, blocks := [gBlock], mempool := [] }

/-- A transaction spending `txT`'s output (signed, in the symbolic model,
by the output's key 7), paying 50 and leaving a fee of 50. -/
def txA : Transaction := { inputs := [⟨u0, ⟨u0, 7⟩⟩], outputs := [⟨50, 12, 9⟩] }

/-- `s2val` after admitting `txA` to the mempool: `u0` is marked. -/
def s3val : BlockChain :=
  { utxos := [(u0, (true, outT))], target := MIN_TARGET, blocks := [gBlock],
    mempool := [(10, txA)] }

/-- A second transaction also spending `u0` (the double-spend of scenario
S3), with no outputs. -/
def txB : Transaction := { inputs := [⟨u0, ⟨u0, 7⟩⟩], outputs := [] }

/-- A coinbase paying exactly the height-1 reward, for a second block with
no other transactions. -/
def cb1 : Transaction := { inputs := [], outputs := [⟨5000000000, 13, 5⟩] }

/-- A valid successor of `gBlock` containing only `cb1`: it links by the
hash of the whole genesis block, declares the easiest possible target, and
commits to the recomputed Merkle root. -/
def b2c : Block :=
  { header := ⟨1, 0, hashBlock gBlock, merkleCalculate [cb1], U256_MOD - 1⟩,
    transactions := [cb1] }

/-- The two-block chain `[gBlock, b2c]`. -/
def sC1val : BlockChain :=
  { utxos := [], target := MIN_TARGET, blocks := [gBlock, b2c], mempool := [] }

/-- A coinbase paying reward plus the 50-satoshi fee of `txA`. -/
def cb2 : Transaction := { inputs := [], outputs := [⟨5000000050, 13, 5⟩] }

/-- A valid successor of `gBlock` containing the mempool transaction
`txA`. -/
def b2 : Block :=
  { header := ⟨1, 0, hashBlock gBlock, merkleCalculate [cb2, txA], U256_MOD - 1⟩,
    transactions := [cb2, txA] }

/-- `s3val` after accepting `b2`: `txA` left the mempool but `u0` is still
marked. -/
def s4val : BlockChain :=
  { utxos := [(u0, (true, outT))], target := MIN_TARGET, blocks := [gBlock, b2],
    mempool := [] }

/-- A block with an all-zero `prev_block_hash` submitted on a non-empty
chain (scenario S2). -/
def bZero : Block := { header := ⟨2, 0, 0, 0, 0⟩, transactions := [] }

/-- A genesis candidate with a nonzero `prev_block_hash`. -/
def bBadGen : Block := { header := ⟨0, 0, 5, 0, 0⟩, transactions := [] }

theorem reachable_s1val : Reachable s1val :=
  .step (.addBlockOp gBlock) .init (by decide)

theorem reachable_s2val : Reachable s2val :=
  .step .rebuildOp reachable_s1val (by decide)

theorem reachable_s3val : Reachable s3val :=
  .step (.addTxOp 10 txA) reachable_s2val (by decide)

theorem reachable_sC1val : Reachable sC1val :=
  .step (.addBlockOp b2c) reachable_s1val (by decide)

theorem reachable_s4val : Reachable s4val :=
  .step (.addBlockOp b2) reachable_s3val (by decide)

/-! ## C7: the genesis gate -/

/-- C7: on an empty chain, `add_block` accepts any block whose
`prev_block_hash` is the zero hash — running none of the target, Merkle
root, timestamp or transaction checks — leaving the chain `[b]`, and
rejects any other block with `InvalidBlock`, leaving the state (hence the
empty chain) unchanged. -/
theorem C7_genesis_gate (s : BlockChain) (b : Block) (hempty : s.blocks = []) :
    (b.header.prev_block_hash = hashZero →
      s.add_block b = some (addBlockCommit s b, none) ∧
      (addBlockCommit s b).blocks = [b]) ∧
    (b.header.prev_block_hash ≠ hashZero →
      s.add_block b = some (s, some .InvalidBlock)) := by
  have hlast : s.blocks.getLast? = none := by rw [hempty]; rfl
  have hblocks : (addBlockCommit s b).blocks = [b] := by
    simp [addBlockCommit, hempty]
  constructor
  · intro hz
    refine ⟨?_, hblocks⟩
    have hval : addBlockValidation s b = none := by
      rw [addBlockValidation_empty hlast]
      simp [hz]
    have hadj : (addBlockCommit s b).try_adjust_target = some (addBlockCommit s b) := by
      apply try_adjust_noop
      rw [hblocks]
      simp [DIFICULTY_UPDATE_INTERVAL]
    unfold BlockChain.add_block
    rw [hval, hadj]
    rfl
  · intro hz
    apply add_block_reject
    rw [addBlockValidation_empty hlast]
    simp [hz]

theorem C7_genesis_gate_witness :
    (BlockChain.new.add_block gBlock = some (addBlockCommit BlockChain.new gBlock, none) ∧
      (addBlockCommit BlockChain.new gBlock).blocks = [gBlock]) ∧
    BlockChain.new.add_block bBadGen = some (BlockChain.new, some .InvalidBlock) :=
  ⟨(C7_genesis_gate BlockChain.new gBlock rfl).1 (by decide),
   (C7_genesis_gate BlockChain.new bBadGen rfl).2 (by decide)⟩

/-! ## C8: `add_block` error behaviour -/

/-- C8: on every state and every rejected block, `add_block` returns the
error of the first failing check — `InvalidBlock` for a wrong previous
hash (including the genesis gate), a missed target or a stale timestamp,
`InvalidMerkleRoot` for a root mismatch, the error of
`verify_transactions` (always `InvalidTransaction` or `InvalidSignature`)
otherwise — and returns the state unchanged, so the chain length is
unchanged. -/
theorem C8_first_failing_error (s : BlockChain) (b : Block) :
    (∀ last_block, s.blocks.getLast? = some last_block →
      (b.header.prev_block_hash ≠ hashBlock last_block →
        s.add_block b = some (s, some .InvalidBlock)) ∧
      (b.header.prev_block_hash = hashBlock last_block →
       ¬ matchesTarget (hashHeader b.header) b.header.target →
        s.add_block b = some (s, some .InvalidBlock)) ∧
      (b.header.prev_block_hash = hashBlock last_block →
       matchesTarget (hashHeader b.header) b.header.target →
       merkleCalculate b.transactions ≠ b.header.merkle_root →
        s.add_block b = some (s, some .InvalidMerkleRoot)) ∧
      (b.header.prev_block_hash = hashBlock last_block →
       matchesTarget (hashHeader b.header) b.header.target →
       merkleCalculate b.transactions = b.header.merkle_root →
       b.header.timestamp ≤ last_block.header.timestamp →
        s.add_block b = some (s, some .InvalidBlock)) ∧
      (∀ e, b.header.prev_block_hash = hashBlock last_block →
       matchesTarget (hashHeader b.header) b.header.target →
       merkleCalculate b.transactions = b.header.merkle_root →
       last_block.header.timestamp < b.header.timestamp →
       b.verify_transactions s.blocks.length s.utxos = some e →
        s.add_block b = some (s, some e))) ∧
    (s.blocks.getLast? = none → b.header.prev_block_hash ≠ hashZero →
      s.add_block b = some (s, some .InvalidBlock)) ∧
    (∀ e, b.verify_transactions s.blocks.length s.utxos = some e →
      e = .InvalidTransaction ∨ e = .InvalidSignature) := by
  refine ⟨?_, ?_, fun e he => verify_transactions_error b _ _ e he⟩
  · intro last_block hlast
    refine ⟨?_, ?_, ?_, ?_, ?_⟩
    · intro h1
      apply add_block_reject
      rw [addBlockValidation_nonempty hlast]
      unfold addBlockValidationFull
      simp [h1]
    · intro h1 h2
      apply add_block_reject
      rw [addBlockValidation_nonempty hlast]
      unfold addBlockValidationFull
      simp [h1, h2]
    · intro h1 h2 h3
      apply add_block_reject
      rw [addBlockValidation_nonempty hlast]
      unfold addBlockValidationFull
      simp [h1, h2, h3]
    · intro h1 h2 h3 h4
      apply add_block_reject
      rw [addBlockValidation_nonempty hlast]
      unfold addBlockValidationFull
      simp [h1, h2, h3, h4]
    · intro e h1 h2 h3 h4 h5
      apply add_block_reject
      rw [addBlockValidation_nonempty hlast]
      unfold addBlockValidationFull
      have h4n : ¬ b.header.timestamp ≤ last_block.header.timestamp := by omega
      simp [h1, h2, h3, h4n, h5]
  · intro hlast h1
    apply add_block_reject
    rw [addBlockValidation_empty hlast]
    simp [h1]

/-- Scenario S2 instance for C8: after the genesis block is accepted, a
second block with an all-zero previous hash is rejected with
`InvalidBlock` and the chain length stays 1. -/
theorem C8_first_failing_error_witness :
    s1val.add_block bZero = some (s1val, some .InvalidBlock) ∧ s1val.blocks.length = 1 :=
  ⟨(((C8_first_failing_error s1val bZero).1 gBlock (by decide)).1 (by decide)), by decide⟩

/-! ## C6: retargeting bounds -/

/-- The state after adjusting a 50-identical-block chain: elapsed time 0,
so the target clamps to a quarter of `MIN_TARGET`. -/
def s50val : BlockChain :=
  { utxos := [], target := MIN_TARGET, blocks := List.replicate 50 gBlock, mempool := [] }

def s50adj : BlockChain :=
  { utxos := [], target := 2 ^ 238, blocks := List.replicate 50 gBlock, mempool := [] }

/-- C6: `try_adjust_target` is the identity whenever the number of blocks
is not a positive multiple of `DIFFICULTY_UPDATE_INTERVAL`; and whenever
it returns a state (the stored target never exceeding `MIN_TARGET`, an
invariant of every program state), the new target lies in
`[target/4, target*4]` and never exceeds `MIN_TARGET`. -/
theorem C6_retarget_bounds (s : BlockChain) :
    (¬ (0 < s.blocks.length ∧ s.blocks.length % DIFICULTY_UPDATE_INTERVAL = 0) →
      s.try_adjust_target = some s) ∧
    (s.target ≤ MIN_TARGET →
      ∀ s2, s.try_adjust_target = some s2 →
        s.target / 4 ≤ s2.target ∧ s2.target ≤ 4 * s.target ∧ s2.target ≤ MIN_TARGET) := by
  refine ⟨try_adjust_noop s, ?_⟩
  intro ht s2 h
  have hMIN : MIN_TARGET = 2 ^ 240 := rfl
  unfold BlockChain.try_adjust_target at h
  split at h
  · cases h; exact ⟨Nat.div_le_self _ _, by omega, ht⟩
  · split at h
    · cases h; exact ⟨Nat.div_le_self _ _, by omega, ht⟩
    · split at h
      · cases h
      · split at h
        · cases h
        · cases h
          have hc : s.target / 4 ≤ adjClamped s ∧ adjClamped s ≤ 4 * s.target := by
            unfold adjClamped satMul4
            split
            · omega
            · split
              · simp only [Nat.min_def]
                split <;> omega
              · omega
          simp only [Nat.min_def]
          split <;> omega

theorem C6_retarget_bounds_witness :
    s1val.try_adjust_target = some s1val ∧
    s50val.target / 4 ≤ s50adj.target ∧ s50adj.target ≤ 4 * s50val.target ∧
      s50adj.target ≤ MIN_TARGET :=
  ⟨(C6_retarget_bounds s1val).1 (by decide),
   (C6_retarget_bounds s50val).2 (by decide) s50adj (by decide)⟩

/-! ## C10: input-less transactions pass mempool admission -/

theorem mem_insSorted (x y : Nat × (Int × Transaction))
    (l : List (Nat × (Int × Transaction))) :
    y ∈ insSorted x l ↔ y = x ∨ y ∈ l := by
  induction l with
  | nil => simp [insSorted]
  | cons z rest ih =>
    by_cases hz : z.1 ≤ x.1
    · rw [insSorted, if_pos hz, List.mem_cons, ih, List.mem_cons]
      tauto
    · rw [insSorted, if_neg hz, List.mem_cons]

theorem mem_sortFold (y : Nat × (Int × Transaction))
    (l acc : List (Nat × (Int × Transaction)))
    (h : y ∈ acc ∨ y ∈ l) :
    y ∈ l.foldl (fun acc2 x => insSorted x acc2) acc := by
  induction l generalizing acc with
  | nil => simpa using h
  | cons z rest ih =>
    simp only [List.foldl_cons]
    apply ih
    rcases h with h | h
    · exact Or.inl ((mem_insSorted z y acc).mpr (Or.inr h))
    · rcases List.mem_cons.mp h with h | h
      · exact Or.inl ((mem_insSorted z y acc).mpr (Or.inl h))
      · exact Or.inr h

theorem keyMempool_append (utxos : UtxoMap) (l1 l2 : List (Int × Transaction))
    (ks1 ks2 : List (Nat × (Int × Transaction)))
    (h1 : keyMempool utxos l1 = some ks1) (h2 : keyMempool utxos l2 = some ks2) :
    keyMempool utxos (l1 ++ l2) = some (ks1 ++ ks2) := by
  induction l1 generalizing ks1 with
  | nil =>
    simp [keyMempool] at h1
    subst h1
    simpa using h2
  | cons e rest ih =>
    rw [keyMempool] at h1
    split at h1
    · rename_i k ks hk hrest
      cases h1
      simp only [List.cons_append]
      rw [keyMempool, ih _ hrest, hk]
    · cases h1

theorem keyMempool_total (utxos : UtxoMap) (mp : List (Int × Transaction))
    (h : ∀ e ∈ mp, (feeKey utxos e.2).isSome) :
    ∃ ks, keyMempool utxos mp = some ks := by
  induction mp with
  | nil => exact ⟨[], rfl⟩
  | cons e rest ih =>
    obtain ⟨k, hk⟩ := Option.isSome_iff_exists.mp (h e (by simp))
    obtain ⟨ks, hks⟩ := ih (fun x hx => h x (by simp [hx]))
    exact ⟨(k, e) :: ks, by rw [keyMempool, hk, hks]⟩

/-- C10: `add_to_mempool` accepts input-less transactions — for any
transaction with no inputs whose outputs sum to 0, it returns `Ok`, leaves
the UTXO set unchanged, and the transaction joins the mempool (the
UTXO-existence, duplicate-input and value checks are all vacuous, so the
coinbase shape is not rejected at admission).  The hypothesis on the
existing mempool excludes the sort-key panic on entries referencing
missing UTXOs. -/
theorem C10_inputless_admission (s : BlockChain) (now : Int) (tx : Transaction)
    (h1 : tx.inputs = []) (h2 : outSum tx = 0)
    (h3 : ∀ e ∈ s.mempool, (feeKey s.utxos e.2).isSome) :
    ∃ mp, s.add_to_mempool now tx = some ({ s with mempool := mp }, none) ∧
      (now, tx) ∈ mp := by
  obtain ⟨ins, outs⟩ := tx
  simp only [Transaction.mk.injEq] at h1 ⊢
  subst h1
  obtain ⟨ks, hks⟩ := keyMempool_total s.utxos s.mempool h3
  have hkey : feeKey s.utxos ⟨[], outs⟩ = some 0 := by
    simp only [feeKey, txInputValues, inputsValueSum, Option.map_some]
    rw [h2]
    rfl
  have hsingle : keyMempool s.utxos [(now, (⟨[], outs⟩ : Transaction))] =
      some [(0, (now, (⟨[], outs⟩ : Transaction)))] := by
    rw [keyMempool, hkey, keyMempool]
  have happ := keyMempool_append s.utxos s.mempool [(now, ⟨[], outs⟩)] ks _ hks hsingle
  have hevict : evictState s ⟨[], outs⟩ = (s.utxos, s.mempool) := rfl
  refine ⟨((ks ++ [(0, (now, (⟨[], outs⟩ : Transaction)))]).foldl
      (fun acc x => insSorted x acc) []).map
    (fun (e : Nat × (Int × Transaction)) => e.2), ?_, ?_⟩
  · unfold BlockChain.add_to_mempool
    rw [hevict]
    split
    · rename_i hbad
      simp [mempoolInputsOk] at hbad
    · split
      · rename_i hnone
        simp [txInputValues, inputsValueSum] at hnone
      · rename_i allInputs hsome
        simp only [txInputValues, inputsValueSum] at hsome
        cases hsome
        rw [if_neg (by rw [h2]; omega)]
        simp only [markInputs, List.foldl_nil, List.foldl_nil, sortMempool]
        rw [happ]
        rfl
  · have hm : ((0 : Nat), (now, (⟨[], outs⟩ : Transaction))) ∈
        (ks ++ [(0, (now, (⟨[], outs⟩ : Transaction)))]).foldl
          (fun acc x => insSorted x acc) [] :=
      mem_sortFold _ _ _ (Or.inr (by simp))
    exact List.mem_map_of_mem _ hm

/-- Concrete instance of C10: the empty transaction is admitted to the
empty ledger's mempool. -/
theorem C10_inputless_admission_witness :
    ∃ mp, BlockChain.new.add_to_mempool 0 ⟨[], []⟩ =
        some ({ BlockChain.new with mempool := mp }, none) ∧
      ((0 : Int), (⟨[], []⟩ : Transaction)) ∈ mp :=
  C10_inputless_admission BlockChain.new 0 ⟨[], []⟩ rfl rfl (by simp [BlockChain.new])

/-! ## C2: mempool double-spend eviction (the conflict search cannot match) -/

/-- The state produced by admitting the double-spend `txB` on top of
`s3val`: both `txA` and `txB` sit in the mempool. -/
def sC2val : BlockChain :=
  { utxos := [(u0, (true, outT))], target := MIN_TARGET, blocks := [gBlock],
    mempool := [(10, txA), (20, txB)] }

/-- C2, evaluated at a concrete reachable state: the mempool holds `txA`
spending the marked UTXO `u0`; admitting `txB`, which also spends `u0`,
succeeds and leaves `u0` marked — but `txA` is *not* evicted: the conflict
search compares mempool transactions' *output* hashes against `u0`, which
is a *transaction* hash, so it never matches and both transactions remain
in the mempool.  This contradicts the claimed S3 behaviour (mempool
afterwards contains `txB` but not `txA`). -/
theorem C2_no_eviction :
    Reachable s3val ∧
    s3val.mempool = [(10, txA)] ∧
    aget s3val.utxos u0 = some (true, outT) ∧
    txA.inputs.map (fun i => i.prev_tx_output_hash) = [u0] ∧
    txB.inputs.map (fun i => i.prev_tx_output_hash) = [u0] ∧
    s3val.add_to_mempool 20 txB = some (sC2val, none) ∧
    (10, txA) ∈ sC2val.mempool ∧
    (20, txB) ∈ sC2val.mempool ∧
    aget sC2val.utxos u0 = some (true, outT) :=
  ⟨reachable_s3val, by decide, by decide, by decide, by decide, by decide, by decide,
   by decide, by decide⟩

/-! ## C1: hash-chain linkage -/

/-- The linkage invariant the code actually maintains: each block's
`prev_block_hash` is the hash of the *whole* previous block and timestamps
strictly increase. -/
def chainLinked (blocks : List Block) : Prop :=
  ∀ i, (h : i + 1 < blocks.length) →
    (blocks[i + 1]).header.prev_block_hash = hashBlock (blocks[i]) ∧
    (blocks[i]).header.timestamp < (blocks[i + 1]).header.timestamp

/-- Successful validation against a non-empty chain pins the previous
hash to the hash of the last block and forces a strictly newer
timestamp. -/
theorem validation_none_nonempty {s : BlockChain} {b last : Block}
    (hlast : s.blocks.getLast? = some last) (h : addBlockValidation s b = none) :
    b.header.prev_block_hash = hashBlock last ∧
    last.header.timestamp < b.header.timestamp := by
  rw [addBlockValidation_nonempty hlast] at h
  unfold addBlockValidationFull at h
  split at h
  · cases h
  · split at h
    · cases h
    · split at h
      · cases h
      · split at h
        · cases h
        · rename_i h1 h2 h3 h4
          exact ⟨by tauto, by omega⟩

/-- `add_block` either rejects (state unchanged) or appends the validated
block, leaving the UTXO set untouched. -/
theorem add_block_blocks {s : BlockChain} {b : Block} {r : BlockChain × Option BtcError}
    (h : s.add_block b = some r) :
    r.1 = s ∨ (addBlockValidation s b = none ∧ r.1.blocks = s.blocks ++ [b] ∧
      r.1.utxos = s.utxos ∧
      r.1.mempool = s.mempool.filter
        (fun e => ¬ (b.transactions.map hashTx).contains (hashTx e.2))) := by
  unfold BlockChain.add_block at h
  split at h
  · cases h; exact Or.inl rfl
  · rename_i hval
    cases hadj : (addBlockCommit s b).try_adjust_target with
    | none => rw [hadj] at h; cases h
    | some s2 =>
      rw [hadj] at h
      cases h
      obtain ⟨hb, hu, hm⟩ := try_adjust_fields hadj
      exact Or.inr ⟨hval, by rw [hb]; rfl, by rw [hu]; rfl, by rw [hm]; rfl⟩

/-- `add_to_mempool` never changes the chain. -/
theorem add_to_mempool_blocks {s : BlockChain} {now : Int} {tx : Transaction}
    {r : BlockChain × Option BtcError} (h : s.add_to_mempool now tx = some r) :
    r.1.blocks = s.blocks := by
  unfold BlockChain.add_to_mempool at h
  split at h
  · cases h; rfl
  · split at h
    · cases h
    · split at h
      · cases h; rfl
      · split at h
        · cases h
        · cases h; rfl

theorem chainLinked_append (l : List Block) (b : Block) (hl : chainLinked l)
    (hlink : ∀ last, l.getLast? = some last →
      b.header.prev_block_hash = hashBlock last ∧
      last.header.timestamp < b.header.timestamp) :
    chainLinked (l ++ [b]) := by
  intro i hi
  have hi1 : i + 1 < l.length + 1 := by
    simpa using hi
  have hi0 : i < (l ++ [b]).length := by
    simp
    omega
  by_cases hlt : i + 1 < l.length
  · have e1 : (l ++ [b])[i + 1] = l[i + 1] := List.getElem_append_left hlt
    have e0 : (l ++ [b])[i] = l[i] := List.getElem_append_left (by omega)
    rw [e1, e0]
    exact hl i hlt
  · have hieq : i + 1 = l.length := by omega
    have hil : i < l.length := by omega
    have e1p : (l ++ [b])[i + 1]? = some b := by
      rw [hieq, List.getElem?_append_right (Nat.le_refl _)]
      simp
    have e1 : (l ++ [b])[i + 1] = b := by
      rw [List.getElem?_eq_getElem hi] at e1p
      exact Option.some.inj e1p
    have e0 : (l ++ [b])[i] = l[i] := List.getElem_append_left hil
    have hlast : l.getLast? = some l[i] := by
      rw [List.getLast?_eq_getElem?]
      rw [show l.length - 1 = i from by omega]
      exact List.getElem?_eq_getElem hil
    rw [e1, e0]
    exact hlink l[i] hlast

/-- The linkage invariant holds in every reachable state. -/
theorem reachable_chainLinked {s : BlockChain} (h : Reachable s) : chainLinked s.blocks := by
  induction h with
  | init => intro i hi; simp [BlockChain.new] at hi
  | @step s s2 op hr hop ih =>
    cases op with
    | addBlockOp b =>
      simp only [applyOp] at hop
      cases hab : s.add_block b with
      | none => rw [hab] at hop; cases hop
      | some r =>
        rw [hab] at hop
        cases hop
        show chainLinked r.1.blocks
        rcases add_block_blocks hab with h1 | ⟨hval, hblocks, _, _⟩
        · rw [h1]; exact ih
        · rw [hblocks]
          exact chainLinked_append _ _ ih
            (fun last hlast => validation_none_nonempty hlast hval)
    | addTxOp now tx =>
      simp only [applyOp] at hop
      cases hab : s.add_to_mempool now tx with
      | none => rw [hab] at hop; cases hop
      | some r =>
        rw [hab] at hop
        cases hop
        show chainLinked r.1.blocks
        rw [add_to_mempool_blocks hab]
        exact ih
    | cleanupOp now =>
      simp only [applyOp, Option.some.injEq] at hop
      rw [← hop]
      exact ih
    | rebuildOp =>
      simp only [applyOp, Option.some.injEq] at hop
      rw [← hop]
      exact ih

/-- C1 (amended): in every reachable state, each block's
`prev_block_hash` equals the hash of the *whole previous block* (not of
its header alone) and timestamps strictly increase; on a non-empty chain,
`add_block` rejects with `InvalidBlock` any block whose
`prev_block_hash` differs from the hash of the last block. -/
theorem C1_hash_chain_linkage (s : BlockChain) (h : Reachable s) :
    (∀ i, (hi : i + 1 < s.blocks.length) →
      (s.blocks[i + 1]).header.prev_block_hash = hashBlock (s.blocks[i]) ∧
      (s.blocks[i]).header.timestamp < (s.blocks[i + 1]).header.timestamp) ∧
    (∀ last b, s.blocks.getLast? = some last →
      b.header.prev_block_hash ≠ hashBlock last →
      s.add_block b = some (s, some .InvalidBlock)) := by
  refine ⟨reachable_chainLinked h, fun last b hlast hne => ?_⟩
  apply add_block_reject
  rw [addBlockValidation_nonempty hlast]
  unfold addBlockValidationFull
  simp [hne]

theorem C1_hash_chain_linkage_witness :
    b2c.header.prev_block_hash = hashBlock gBlock ∧
    gBlock.header.timestamp < b2c.header.timestamp :=
  (C1_hash_chain_linkage sC1val reachable_sC1val).1 0 (by decide)

/-- Counterexample to C1 as stated: in the reachable two-block chain
`sC1val`, the second block's `prev_block_hash` is the hash of the whole
previous block, which differs from the hash of the previous block's
*header* — the code links blocks by `Block::hash`, not
`BlockHeader::hash`. -/
theorem C1_hash_chain_linkage_cex :
    Reachable sC1val ∧
    sC1val.blocks[0]? = some gBlock ∧
    sC1val.blocks[1]?.map (fun bb => bb.header.prev_block_hash) = some (hashBlock gBlock) ∧
    hashBlock gBlock ≠ hashHeader gBlock.header :=
  ⟨reachable_sC1val, by decide, by decide, by decide⟩

/-! ## C4: marked UTXOs versus mempool contents -/

/-- A successful input-value sum certifies that every referenced UTXO
exists. -/
theorem inputsValueSum_mem {utxos : UtxoMap} {ins : List TransactionInput} {v : Nat}
    (h : inputsValueSum utxos ins = some v) :
    ∀ inp ∈ ins, (aget utxos inp.prev_tx_output_hash).isSome := by
  induction ins generalizing v with
  | nil => simp
  | cons i rest ih =>
    rw [inputsValueSum] at h
    split at h
    · rename_i v2 a hget hrest
      intro inp hm
      rcases List.mem_cons.mp hm with h1 | h1
      · subst h1
        rw [hget]
        rfl
      · exact ih hrest inp h1
    · cases h

/-- Marking a list of inputs leaves unrelated keys alone. -/
theorem aget_markInputs_notmem (m : UtxoMap) (ins : List TransactionInput) (k : Nat)
    (h : ∀ inp ∈ ins, inp.prev_tx_output_hash ≠ k) :
    aget (markInputs m ins) k = aget m k := by
  induction ins generalizing m with
  | nil => rfl
  | cons i rest ih =>
    simp only [markInputs, List.foldl_cons]
    rw [show List.foldl (fun acc inp => alSetMark acc inp.prev_tx_output_hash true)
        (alSetMark m i.prev_tx_output_hash true) rest =
      markInputs (alSetMark m i.prev_tx_output_hash true) rest from rfl]
    rw [ih _ (fun inp hm => h inp (List.mem_cons_of_mem _ hm))]
    rw [aget_alSetMark]
    rw [if_neg (h i (List.mem_cons_self _ _))]

/-- Marking a list of inputs sets `marked = true` on every present
referenced key. -/
theorem aget_markInputs_mem (m : UtxoMap) (ins : List TransactionInput) (k : Nat)
    (hmem : ∃ inp ∈ ins, inp.prev_tx_output_hash = k)
    (hsome : (aget m k).isSome) :
    ∃ o, aget (markInputs m ins) k = some (true, o) := by
  induction ins generalizing m with
  | nil => simp at hmem
  | cons i rest ih =>
    simp only [markInputs, List.foldl_cons]
    rw [show List.foldl (fun acc inp => alSetMark acc inp.prev_tx_output_hash true)
        (alSetMark m i.prev_tx_output_hash true) rest =
      markInputs (alSetMark m i.prev_tx_output_hash true) rest from rfl]
    by_cases hrest : ∃ inp ∈ rest, inp.prev_tx_output_hash = k
    · exact ih _ hrest (by rw [aget_isSome_alSetMark]; exact hsome)
    · have hik : i.prev_tx_output_hash = k := by
        rcases hmem with ⟨inp, hm, he⟩
        rcases List.mem_cons.mp hm with h1 | h1
        · rw [← h1]; exact he
        · exact absurd ⟨inp, h1, he⟩ hrest
      rw [aget_markInputs_notmem _ _ _ (by
        intro inp hm he
        exact hrest ⟨inp, hm, he⟩)]
      rw [aget_alSetMark, hik, if_pos rfl]
      obtain ⟨v, hv⟩ := Option.isSome_iff_exists.mp hsome
      exact ⟨v.2, by rw [hv]; rfl⟩

/-- C4 (amended): after any *successful* `add_to_mempool(tx)`, every UTXO
referenced by `tx`'s inputs is `marked = true`.  The claimed global
biconditional over all operation sequences is refuted by
`C4_marked_without_mempool_cex`. -/
theorem C4_mempool_marking (s : BlockChain) (now : Int) (tx : Transaction) (s2 : BlockChain)
    (h : s.add_to_mempool now tx = some (s2, none)) :
    ∀ inp ∈ tx.inputs, ∃ o, aget s2.utxos inp.prev_tx_output_hash = some (true, o) := by
  unfold BlockChain.add_to_mempool at h
  split at h
  · simp at h
  · split at h
    · cases h
    · rename_i allInputs hsum
      split at h
      · simp at h
      · split at h
        · cases h
        · rename_i mp3 hsort
          simp only [Option.some.injEq, Prod.mk.injEq] at h
          obtain ⟨hrec, -⟩ := h
          intro inp hmem
          rw [← hrec]
          apply aget_markInputs_mem
          · exact ⟨inp, hmem, rfl⟩
          · exact inputsValueSum_mem hsum inp hmem

theorem C4_mempool_marking_witness :
    ∃ o, aget s3val.utxos u0 = some (true, o) :=
  C4_mempool_marking s2val 10 txA s3val (by decide) ⟨u0, ⟨u0, 7⟩⟩ (by decide)

/-- Counterexample to C4 as stated: in the reachable state `s4val` —
produced by accepting a block that contains the mempool transaction `txA`
— the UTXO `u0` is still `marked = true` although the mempool is empty:
`add_block` removes mined transactions from the mempool without unmarking
their input UTXOs. -/
theorem C4_marked_without_mempool_cex :
    Reachable s4val ∧
    aget s4val.utxos u0 = some (true, outT) ∧
    s4val.mempool = [] :=
  ⟨reachable_s4val, by decide, by decide⟩

/-! ## C3: `rebuild_utxos` versus the clean replay -/

/-- A key is *touched* by a transaction's replay step when the transaction
either spends it or (having at least one output) inserts under it. -/
def touchedTx (k : Nat) (tx : Transaction) : Bool :=
  tx.inputs.any (fun i => i.prev_tx_output_hash == k) ||
    (!tx.outputs.isEmpty && hashTx tx == k)

def touchedTxs (k : Nat) (txs : List Transaction) : Bool :=
  txs.any (touchedTx k)

theorem aget_removeFold (m : UtxoMap) (ins : List TransactionInput) (k : Nat) :
    aget (ins.foldl (fun acc inp => aremove acc inp.prev_tx_output_hash) m) k =
      if ins.any (fun i => i.prev_tx_output_hash == k) then none else aget m k := by
  induction ins generalizing m with
  | nil => simp
  | cons i rest ih =>
    simp only [List.foldl_cons, List.any_cons]
    rw [ih]
    by_cases hik : i.prev_tx_output_hash = k
    · simp [hik, aget_aremove]
    · rw [aget_aremove, if_neg hik]
      simp [hik]

theorem aget_insertFold (m : UtxoMap) (outs : List TransactionOutput) (hk k : Nat) :
    aget (outs.foldl (fun acc o => ains acc hk (false, o)) m) k =
      match outs.getLast? with
      | none => aget m k
      | some o => if hk = k then some (false, o) else aget m k := by
  induction outs generalizing m with
  | nil => simp
  | cons o rest ih =>
    simp only [List.foldl_cons]
    rw [ih]
    cases rest with
    | nil =>
      simp [aget_ains]
    | cons r rs =>
      rw [List.getLast?_cons_cons]
      obtain ⟨o2, ho2⟩ : ∃ o2, (r :: rs).getLast? = some o2 :=
        ⟨(r :: rs).getLast (by simp), List.getLast?_eq_getLast _ _⟩
      rw [ho2]
      by_cases hk2 : hk = k
      · simp [hk2]
      · simp only [hk2, if_false]
        rw [aget_ains, if_neg hk2]

theorem aget_applyTxUtxos (m : UtxoMap) (tx : Transaction) (k : Nat) :
    aget (applyTxUtxos m tx) k =
      if touchedTx k tx then aget (applyTxUtxos [] tx) k else aget m k := by
  unfold applyTxUtxos touchedTx
  rw [aget_insertFold, aget_insertFold, aget_removeFold, aget_removeFold]
  cases hlast : tx.outputs.getLast? with
  | none =>
    have hempty : tx.outputs.isEmpty := by
      cases ho : tx.outputs with
      | nil => rfl
      | cons a l => rw [ho] at hlast; simp [List.getLast?_cons] at hlast
    by_cases hin : tx.inputs.any (fun i => i.prev_tx_output_hash == k)
    · simp [hin, hempty]
    · simp [hin, hempty]
  | some o =>
    have hne : tx.outputs.isEmpty = false := by
      cases ho : tx.outputs with
      | nil => rw [ho] at hlast; simp at hlast
      | cons a l => rfl
    by_cases hhk : hashTx tx = k
    · simp [hhk, hne]
    · by_cases hin : tx.inputs.any (fun i => i.prev_tx_output_hash == k)
      · simp [hhk, hne, hin]
      · simp [hhk, hne, hin]

/-- The replay agreement: replaying over any starting map agrees with the
clean replay on every touched key and preserves the starting map
elsewhere. -/
theorem aget_replayTxs (txs : List Transaction) (m : UtxoMap) (k : Nat) :
    aget (replayTxs m txs) k =
      if touchedTxs k txs then aget (replayTxs [] txs) k else aget m k := by
  induction txs generalizing m with
  | nil => simp [replayTxs, touchedTxs]
  | cons tx rest ih =>
    rw [show replayTxs m (tx :: rest) = replayTxs (applyTxUtxos m tx) rest from rfl]
    rw [show replayTxs [] (tx :: rest) = replayTxs (applyTxUtxos [] tx) rest from rfl]
    rw [ih (applyTxUtxos m tx)]
    have hcons : touchedTxs k (tx :: rest) = (touchedTx k tx || touchedTxs k rest) := by
      simp [touchedTxs]
    by_cases hrest : touchedTxs k rest
    · rw [ih (applyTxUtxos [] tx)]
      simp [hcons, hrest]
    · rw [aget_applyTxUtxos]
      by_cases htx : touchedTx k tx
      · rw [ih (applyTxUtxos [] tx)]
        simp [hcons, hrest, htx]
      · simp [hcons, hrest, htx]

/-- Every key present in the UTXO map is touched by the chain's replay. -/
def utxoCovered (s : BlockChain) : Prop :=
  ∀ k, (aget s.utxos k).isSome → touchedTxs k (allTxs s.blocks)

theorem aget_isSome_unmarkInputs (m : UtxoMap) (ins : List TransactionInput) (k : Nat) :
    (aget (unmarkInputs m ins) k).isSome = (aget m k).isSome := by
  induction ins generalizing m with
  | nil => rfl
  | cons i rest ih =>
    simp only [unmarkInputs, List.foldl_cons]
    rw [show List.foldl (fun acc inp => alSetMark acc inp.prev_tx_output_hash false)
        (alSetMark m i.prev_tx_output_hash false) rest =
      unmarkInputs (alSetMark m i.prev_tx_output_hash false) rest from rfl]
    rw [ih, aget_isSome_alSetMark]

theorem aget_isSome_markInputs (m : UtxoMap) (ins : List TransactionInput) (k : Nat) :
    (aget (markInputs m ins) k).isSome = (aget m k).isSome := by
  induction ins generalizing m with
  | nil => rfl
  | cons i rest ih =>
    simp only [markInputs, List.foldl_cons]
    rw [show List.foldl (fun acc inp => alSetMark acc inp.prev_tx_output_hash true)
        (alSetMark m i.prev_tx_output_hash true) rest =
      markInputs (alSetMark m i.prev_tx_output_hash true) rest from rfl]
    rw [ih, aget_isSome_alSetMark]

theorem aget_isSome_evictStep (st : UtxoMap × List (Int × Transaction))
    (inp : TransactionInput) (k : Nat) :
    (aget (evictStep st inp).1 k).isSome = (aget st.1 k).isSome := by
  unfold evictStep
  split
  · split
    · split
      · rw [aget_isSome_unmarkInputs]
      · rfl
    · rw [aget_isSome_alSetMark]
  · rfl

theorem aget_isSome_evictFold (ins : List TransactionInput)
    (st : UtxoMap × List (Int × Transaction)) (k : Nat) :
    (aget (ins.foldl evictStep st).1 k).isSome = (aget st.1 k).isSome := by
  induction ins generalizing st with
  | nil => rfl
  | cons i rest ih =>
    rw [List.foldl_cons, ih, aget_isSome_evictStep]

/-- `add_to_mempool` never changes which keys the UTXO map holds. -/
theorem add_to_mempool_utxos_isSome {s : BlockChain} {now : Int} {tx : Transaction}
    {r : BlockChain × Option BtcError} (h : s.add_to_mempool now tx = some r) (k : Nat) :
    (aget r.1.utxos k).isSome = (aget s.utxos k).isSome := by
  unfold BlockChain.add_to_mempool at h
  split at h
  · cases h; rfl
  · split at h
    · cases h
    · split at h
      · cases h
        show (aget (evictState s tx).1 k).isSome = _
        rw [show (evictState s tx).1 = (tx.inputs.foldl evictStep (s.utxos, s.mempool)).1
          from rfl]
        rw [aget_isSome_evictFold]
      · split at h
        · cases h
        · cases h
          show (aget (markInputs (evictState s tx).1 tx.inputs) k).isSome = _
          rw [aget_isSome_markInputs]
          rw [show (evictState s tx).1 = (tx.inputs.foldl evictStep (s.utxos, s.mempool)).1
            from rfl]
          rw [aget_isSome_evictFold]

theorem aget_isSome_setMarkFold (hs : List Nat) (m : UtxoMap) (k : Nat) :
    (aget (hs.foldl (fun acc h => alSetMark acc h false) m) k).isSome =
      (aget m k).isSome := by
  induction hs generalizing m with
  | nil => rfl
  | cons h rest ih =>
    rw [List.foldl_cons, ih, aget_isSome_alSetMark]

theorem touchedTxs_append (k : Nat) (txs more : List Transaction)
    (h : touchedTxs k txs) : touchedTxs k (txs ++ more) := by
  unfold touchedTxs at h ⊢
  rw [List.any_append, h]
  rfl

/-- Coverage is an invariant of every reachable state. -/
theorem reachable_utxoCovered {s : BlockChain} (h : Reachable s) : utxoCovered s := by
  induction h with
  | init => intro k hk; simp [BlockChain.new, aget] at hk
  | @step s s2 op hr hop ih =>
    cases op with
    | addBlockOp b =>
      simp only [applyOp] at hop
      cases hab : s.add_block b with
      | none => rw [hab] at hop; cases hop
      | some r =>
        rw [hab] at hop
        cases hop
        show utxoCovered r.1
        rcases add_block_blocks hab with h1 | ⟨hval, hblocks, hutxos, _⟩
        · rw [h1]; exact ih
        · intro k hk
          rw [hutxos] at hk
          rw [hblocks]
          rw [show allTxs (s.blocks ++ [b]) = allTxs s.blocks ++ b.transactions by
            simp [allTxs]]
          exact touchedTxs_append _ _ _ (ih k hk)
    | addTxOp now tx =>
      simp only [applyOp] at hop
      cases hab : s.add_to_mempool now tx with
      | none => rw [hab] at hop; cases hop
      | some r =>
        rw [hab] at hop
        cases hop
        show utxoCovered r.1
        intro k hk
        rw [add_to_mempool_utxos_isSome hab] at hk
        rw [show r.1.blocks = s.blocks from add_to_mempool_blocks hab]
        exact ih k hk
    | cleanupOp now =>
      simp only [applyOp, Option.some.injEq] at hop
      rw [← hop]
      intro k hk
      unfold BlockChain.cleanup_mempool at hk
      rw [aget_isSome_setMarkFold] at hk
      exact ih k hk
    | rebuildOp =>
      simp only [applyOp, Option.some.injEq] at hop
      rw [← hop]
      intro k hk
      unfold BlockChain.rebuild_utxos at hk
      rw [show ({ s with utxos := replayTxs s.utxos (allTxs s.blocks) } :
        BlockChain).utxos = replayTxs s.utxos (allTxs s.blocks) from rfl] at hk
      rw [aget_replayTxs] at hk
      by_cases ht : touchedTxs k (allTxs s.blocks)
      · exact ht
      · rw [if_neg ht] at hk
        exact ih k hk

/-- C3 (amended): in every *reachable* state, `rebuild_utxos` produces
exactly the clean replay of all blocks from an empty map — extensionally,
every key maps to the same entry.  On arbitrary states the claim fails
(`C3_rebuild_replay_cex`): the code replays over the current map without
clearing it first. -/
theorem C3_rebuild_replay (s : BlockChain) (h : Reachable s) :
    ∀ k, aget (s.rebuild_utxos).utxos k = aget (specReplay s.blocks) k := by
  intro k
  show aget (replayTxs s.utxos (allTxs s.blocks)) k =
    aget (replayTxs [] (allTxs s.blocks)) k
  rw [aget_replayTxs]
  by_cases ht : touchedTxs k (allTxs s.blocks)
  · rw [if_pos ht]
  · rw [if_neg ht]
    have hagree := aget_replayTxs (allTxs s.blocks) [] k
    rw [if_neg ht] at hagree
    rw [hagree]
    cases hs : aget s.utxos k with
    | none => rfl
    | some v =>
      exact absurd (reachable_utxoCovered h k (by rw [hs]; rfl)) ht

theorem C3_rebuild_replay_witness :
    aget (s1val.rebuild_utxos).utxos u0 = aget (specReplay s1val.blocks) u0 :=
  C3_rebuild_replay s1val reachable_s1val u0

/-- A state on which `rebuild_utxos` differs from the clean replay: the
blocks are empty but the UTXO map is not, and `rebuild_utxos` does not
clear it. -/
def cexC3 : BlockChain :=
  { utxos := [(5, (true, outT))], target := MIN_TARGET, blocks := [], mempool := [] }

/-- Counterexample to C3 as stated (quantified over every `BlockChain` state): on
`cexC3` the rebuilt map still contains key 5 while the clean replay of its
(empty) block list is empty. -/
theorem C3_rebuild_replay_cex :
    aget (cexC3.rebuild_utxos).utxos 5 = some (true, outT) ∧
    aget (specReplay cexC3.blocks) 5 = none :=
  ⟨by decide, by decide⟩

/-! ## C5: coinbase value conservation -/

/-- The value of the UTXO referenced by an input (0 if absent; the claims
using it require presence). -/
def refValue (utxos : UtxoMap) (inp : TransactionInput) : Nat :=
  ((aget utxos inp.prev_tx_output_hash).map (fun v => v.2.value)).getD 0

/-- All input UTXO references of the non-coinbase transactions, in block
order. -/
def flatInputRefs (txs : List Transaction) : List Nat :=
  txs.flatMap (fun tx => tx.inputs.map (fun i => i.prev_tx_output_hash))

/-- All output hashes of the non-coinbase transactions, in block order. -/
def flatOutputHashes (txs : List Transaction) : List Nat :=
  txs.flatMap (fun tx => tx.outputs.map hashOutput)

/-- The claim's input side: sum of the values of the UTXOs referenced by
the non-coinbase inputs. -/
def nonCoinbaseInputSum (utxos : UtxoMap) (txs : List Transaction) : Nat :=
  ((txs.flatMap (fun tx => tx.inputs)).map (refValue utxos)).sum

/-- The claim's output side: sum of the non-coinbase output values. -/
def nonCoinbaseOutputSum (txs : List Transaction) : Nat :=
  ((txs.flatMap (fun tx => tx.outputs)).map (fun o => o.value)).sum

theorem aget_not_mem_keys {β : Type} (m : List (Nat × β)) (k : Nat)
    (h : k ∉ m.map (fun e => e.1)) : aget m k = none := by
  induction m with
  | nil => rfl
  | cons e rest ih =>
    simp only [List.map_cons, List.mem_cons] at h
    push_neg at h
    rw [aget_cons, if_neg (fun he => h.1 he.symm), ih h.2]

theorem aremove_not_mem {β : Type} (m : List (Nat × β)) (k : Nat)
    (h : k ∉ m.map (fun e => e.1)) : aremove m k = m := by
  induction m with
  | nil => rfl
  | cons e rest ih =>
    simp only [List.map_cons, List.mem_cons] at h
    push_neg at h
    unfold aremove
    rw [List.filter_cons]
    rw [if_pos (by simpa using fun he => h.1 he.symm)]
    rw [show List.filter (fun e => ¬ e.1 == k) rest = aremove rest k from rfl, ih h.2]

theorem mvalSum_ains (m : List (Nat × TransactionOutput)) (k : Nat) (o : TransactionOutput)
    (h : k ∉ m.map (fun e => e.1)) :
    mvalSum (ains m k o) = o.value + mvalSum m := by
  unfold ains
  rw [aremove_not_mem m k h]
  simp [mvalSum]

theorem keys_ains (m : List (Nat × TransactionOutput)) (k : Nat) (o : TransactionOutput)
    (h : k ∉ m.map (fun e => e.1)) :
    (ains m k o).map (fun e => e.1) = k :: m.map (fun e => e.1) := by
  unfold ains
  rw [aremove_not_mem m k h]
  rfl

theorem not_mem_of_nodup_append_cons {A B : List Nat} {k : Nat}
    (h : (A ++ k :: B).Nodup) : k ∉ A := by
  intro hk
  have hdisj := (List.nodup_append.mp h).2.2
  exact hdisj hk (by simp)

theorem nodup_shift {A B : List Nat} {k : Nat}
    (h : (A ++ k :: B).Nodup) : ((k :: A) ++ B).Nodup := by
  have hp : (A ++ k :: B).Perm (k :: (A ++ B)) := List.perm_middle
  exact hp.nodup h

/-- `feeInputsLoop` succeeds on present, block-wide-distinct references and
extends the accumulator by exactly the referenced UTXO values. -/
theorem feeInputsLoop_ok (ins : List TransactionInput)
    (accI : List (Nat × TransactionOutput)) (utxos : UtxoMap)
    (hpres : ∀ inp ∈ ins, (aget utxos inp.prev_tx_output_hash).isSome)
    (hnd : (accI.map (fun e => e.1) ++
      ins.map (fun i => i.prev_tx_output_hash)).Nodup) :
    ∃ accI2, feeInputsLoop ins accI utxos = .ok accI2 ∧
      accI2.map (fun e => e.1) =
        (ins.map (fun i => i.prev_tx_output_hash)).reverse ++ accI.map (fun e => e.1) ∧
      mvalSum accI2 = mvalSum accI + (ins.map (refValue utxos)).sum := by
  induction ins generalizing accI with
  | nil =>
    exact ⟨accI, rfl, by simp, by simp⟩
  | cons i rest ih =>
    obtain ⟨pv, hpv⟩ := Option.isSome_iff_exists.mp (hpres i (by simp))
    simp only [List.map_cons] at hnd
    have hkacc : i.prev_tx_output_hash ∉ accI.map (fun e => e.1) :=
      not_mem_of_nodup_append_cons hnd
    have hcont : acontains accI i.prev_tx_output_hash = false := by
      unfold acontains
      rw [aget_not_mem_keys _ _ hkacc]
      rfl
    have hnd2 : ((ains accI i.prev_tx_output_hash pv.2).map (fun e => e.1) ++
        rest.map (fun i => i.prev_tx_output_hash)).Nodup := by
      rw [keys_ains _ _ _ hkacc]
      exact nodup_shift hnd
    obtain ⟨accI2, hrun, hkeys, hsum⟩ :=
      ih (ains accI i.prev_tx_output_hash pv.2) (fun inp hm => hpres inp (by simp [hm])) hnd2
    refine ⟨accI2, ?_, ?_, ?_⟩
    · rw [feeInputsLoop, hpv, hcont]
      simpa using hrun
    · rw [hkeys, keys_ains _ _ _ hkacc]
      simp
    · rw [hsum, mvalSum_ains _ _ _ hkacc]
      have hrv : refValue utxos i = pv.2.value := by
        unfold refValue
        rw [hpv]
        rfl
      simp [hrv]
      omega

/-- `feeOutputsLoop` succeeds on block-wide-distinct output hashes and
extends the accumulator by exactly the output values. -/
theorem feeOutputsLoop_ok (outs : List TransactionOutput)
    (accO : List (Nat × TransactionOutput))
    (hnd : (accO.map (fun e => e.1) ++ outs.map hashOutput).Nodup) :
    ∃ accO2, feeOutputsLoop outs accO = .ok accO2 ∧
      accO2.map (fun e => e.1) =
        (outs.map hashOutput).reverse ++ accO.map (fun e => e.1) ∧
      mvalSum accO2 = mvalSum accO + (outs.map (fun o => o.value)).sum := by
  induction outs generalizing accO with
  | nil =>
    exact ⟨accO, rfl, by simp, by simp⟩
  | cons o rest ih =>
    simp only [List.map_cons] at hnd
    have hkacc : hashOutput o ∉ accO.map (fun e => e.1) :=
      not_mem_of_nodup_append_cons hnd
    have hcont : acontains accO (hashOutput o) = false := by
      unfold acontains
      rw [aget_not_mem_keys _ _ hkacc]
      rfl
    have hnd2 : ((ains accO (hashOutput o) o).map (fun e => e.1) ++
        rest.map hashOutput).Nodup := by
      rw [keys_ains _ _ _ hkacc]
      exact nodup_shift hnd
    obtain ⟨accO2, hrun, hkeys, hsum⟩ := ih (ains accO (hashOutput o) o) hnd2
    refine ⟨accO2, ?_, ?_, ?_⟩
    · rw [feeOutputsLoop, hcont]
      simpa using hrun
    · rw [hkeys, keys_ains _ _ _ hkacc]
      simp
    · rw [hsum, mvalSum_ains _ _ _ hkacc]
      have hc : (List.map (fun o => o.value) (o :: rest)).sum =
          o.value + (List.map (fun o => o.value) rest).sum := by
        simp
      omega

/-- `feeMapsLoop` succeeds under the presence/distinctness hypotheses and
computes the two block-wide sums. -/
theorem feeMapsLoop_ok (txs : List Transaction)
    (accI accO : List (Nat × TransactionOutput)) (utxos : UtxoMap)
    (hpres : ∀ tx ∈ txs, ∀ inp ∈ tx.inputs, (aget utxos inp.prev_tx_output_hash).isSome)
    (hndI : (accI.map (fun e => e.1) ++ flatInputRefs txs).Nodup)
    (hndO : (accO.map (fun e => e.1) ++ flatOutputHashes txs).Nodup) :
    ∃ mI mO, feeMapsLoop txs accI accO utxos = .ok (mI, mO) ∧
      mvalSum mI = mvalSum accI + nonCoinbaseInputSum utxos txs ∧
      mvalSum mO = mvalSum accO + nonCoinbaseOutputSum txs := by
  induction txs generalizing accI accO with
  | nil =>
    exact ⟨accI, accO, rfl, by simp [nonCoinbaseInputSum], by simp [nonCoinbaseOutputSum]⟩
  | cons tx rest ih =>
    have hflatI : flatInputRefs (tx :: rest) =
        tx.inputs.map (fun i => i.prev_tx_output_hash) ++ flatInputRefs rest := by
      simp [flatInputRefs]
    have hflatO : flatOutputHashes (tx :: rest) =
        tx.outputs.map hashOutput ++ flatOutputHashes rest := by
      simp [flatOutputHashes]
    rw [hflatI, ← List.append_assoc] at hndI
    rw [hflatO, ← List.append_assoc] at hndO
    obtain ⟨accI2, hrunI, hkeysI, hsumI⟩ :=
      feeInputsLoop_ok tx.inputs accI utxos (hpres tx (by simp))
        ((List.nodup_append.mp hndI).1)
    obtain ⟨accO2, hrunO, hkeysO, hsumO⟩ :=
      feeOutputsLoop_ok tx.outputs accO ((List.nodup_append.mp hndO).1)
    have hndI2 : (accI2.map (fun e => e.1) ++ flatInputRefs rest).Nodup := by
      rw [hkeysI]
      have hp : (accI.map (fun e => e.1) ++
          tx.inputs.map (fun i => i.prev_tx_output_hash)).Perm
            ((tx.inputs.map (fun i => i.prev_tx_output_hash)).reverse ++
              accI.map (fun e => e.1)) :=
        (List.perm_append_comm).trans (((List.reverse_perm _).symm).append_right _)
      exact (hp.append_right _).nodup hndI
    have hndO2 : (accO2.map (fun e => e.1) ++ flatOutputHashes rest).Nodup := by
      rw [hkeysO]
      have hp : (accO.map (fun e => e.1) ++ tx.outputs.map hashOutput).Perm
          ((tx.outputs.map hashOutput).reverse ++ accO.map (fun e => e.1)) :=
        (List.perm_append_comm).trans (((List.reverse_perm _).symm).append_right _)
      exact (hp.append_right _).nodup hndO
    obtain ⟨mI, mO, hrun, hsI, hsO⟩ :=
      ih accI2 accO2 (fun t ht inp hm => hpres t (by simp [ht]) inp hm) hndI2 hndO2
    refine ⟨mI, mO, ?_, ?_, ?_⟩
    · rw [feeMapsLoop, hrunI, hrunO]
      exact hrun
    · rw [hsI, hsumI]
      have : nonCoinbaseInputSum utxos (tx :: rest) =
          (tx.inputs.map (refValue utxos)).sum + nonCoinbaseInputSum utxos rest := by
        simp [nonCoinbaseInputSum]
      omega
    · rw [hsO, hsumO]
      have : nonCoinbaseOutputSum (tx :: rest) =
          (tx.outputs.map (fun o => o.value)).sum + nonCoinbaseOutputSum rest := by
        simp [nonCoinbaseOutputSum]
      omega

/-- `calculate_miner_fees` returns Σinputs − Σoutputs under the
presence/distinctness hypotheses. -/
theorem calculate_miner_fees_ok (b : Block) (utxos : UtxoMap) (rest : List Transaction)
    (htail : b.transactions.tail = rest)
    (hpres : ∀ tx ∈ rest, ∀ inp ∈ tx.inputs, (aget utxos inp.prev_tx_output_hash).isSome)
    (hndI : (flatInputRefs rest).Nodup)
    (hndO : (flatOutputHashes rest).Nodup) :
    b.calculate_miner_fees utxos =
      .ok (nonCoinbaseInputSum utxos rest - nonCoinbaseOutputSum rest) := by
  obtain ⟨mI, mO, hrun, hsI, hsO⟩ :=
    feeMapsLoop_ok rest [] [] utxos hpres (by simpa using hndI) (by simpa using hndO)
  unfold Block.calculate_miner_fees
  rw [htail, hrun]
  have h1 : mvalSum mI = nonCoinbaseInputSum utxos rest := by
    simpa [mvalSum] using hsI
  have h2 : mvalSum mO = nonCoinbaseOutputSum rest := by
    simpa [mvalSum] using hsO
  show Except.ok (mvalSum mI - mvalSum mO) = _
  rw [h1, h2]

/-- C5: under the well-definedness hypotheses (the first transaction
exists; every non-coinbase input references an existing UTXO; no reference
and no output hash repeats within the block; fees are non-negative),
`verify_coinbase_transaction(height, utxos)` succeeds exactly when the
first transaction has no inputs, at least one output, and its outputs sum
to `INITIAL_REWARD·10^8 / 2^(height / HALVING_INTERVAL)` plus the miner
fees Σinputs − Σoutputs; every failure is `InvalidTransaction`. -/
theorem C5_coinbase_conservation (b : Block) (height : Nat) (utxos : UtxoMap)
    (cb : Transaction) (rest : List Transaction)
    (hb : b.transactions = cb :: rest)
    (hpres : ∀ tx ∈ rest, ∀ inp ∈ tx.inputs, (aget utxos inp.prev_tx_output_hash).isSome)
    (hndI : (flatInputRefs rest).Nodup)
    (hndO : (flatOutputHashes rest).Nodup)
    (_hfee : nonCoinbaseOutputSum rest ≤ nonCoinbaseInputSum utxos rest) :
    (b.verify_coinbase_transaction height utxos = none ↔
      (cb.inputs = [] ∧ cb.outputs ≠ [] ∧
        outSum cb = blockReward height +
          (nonCoinbaseInputSum utxos rest - nonCoinbaseOutputSum rest))) ∧
    (b.verify_coinbase_transaction height utxos = none ∨
      b.verify_coinbase_transaction height utxos = some .InvalidTransaction) := by
  have hfees := calculate_miner_fees_ok b utxos rest (by rw [hb]; rfl) hpres hndI hndO
  have hred : b.verify_coinbase_transaction height utxos =
      (if cb.inputs ≠ [] then some .InvalidTransaction
       else if cb.outputs = [] then some .InvalidTransaction
       else if outSum cb ≠ blockReward height +
           (nonCoinbaseInputSum utxos rest - nonCoinbaseOutputSum rest) then
         some .InvalidTransaction
       else none) := by
    unfold Block.verify_coinbase_transaction
    rw [hb, hfees]
  constructor
  · rw [hred]
    constructor
    · intro h
      split at h
      · cases h
      · split at h
        · cases h
        · split at h
          · cases h
          · rename_i h1 h2 h3
            exact ⟨by tauto, h2, by tauto⟩
    · rintro ⟨h1, h2, h3⟩
      rw [if_neg (by simpa using h1), if_neg h2, if_neg (by simpa using h3)]
  · cases hres : b.verify_coinbase_transaction height utxos with
    | none => exact Or.inl rfl
    | some e =>
      have he := verify_coinbase_error _ _ _ _ hres
      exact Or.inr (by rw [he])

/-- The halving-boundary coinbase paying exactly `25·10^8`. -/
def cbGood : Transaction := { inputs := [], outputs := [⟨2500000000, 21, 5⟩] }

def bGood : Block := { header := ⟨0, 0, 0, 0, 0⟩, transactions := [cbGood] }

/-- The halving-boundary coinbase wrongly paying `50·10^8`. -/
def cbBad : Transaction := { inputs := [], outputs := [⟨5000000000, 21, 5⟩] }

def bBad : Block := { header := ⟨0, 0, 0, 0, 0⟩, transactions := [cbBad] }

/-- Scenario S4: at `height = HALVING_INTERVAL` with zero fees, a coinbase
summing to `25·10^8` is accepted and one summing to `50·10^8` is rejected
with `InvalidTransaction`. -/
theorem C5_coinbase_conservation_witness :
    bGood.verify_coinbase_transaction HALVING_INTERVAL [] = none ∧
    bBad.verify_coinbase_transaction HALVING_INTERVAL [] = some .InvalidTransaction := by
  have hgood := C5_coinbase_conservation bGood HALVING_INTERVAL [] cbGood [] rfl
    (by simp) (by simp [flatInputRefs]) (by simp [flatOutputHashes]) (by decide)
  have hbad := C5_coinbase_conservation bBad HALVING_INTERVAL [] cbBad [] rfl
    (by simp) (by simp [flatInputRefs]) (by simp [flatOutputHashes]) (by decide)
  refine ⟨hgood.1.mpr ⟨rfl, by decide, by decide⟩, ?_⟩
  rcases hbad.2 with h2 | h2
  · exfalso
    have hsum := (hbad.1.mp h2).2.2
    revert hsum
    decide
  · exact h2

/-! ## C9: the wire protocol

`network.rs` `Message::encode`/`Message::decode` delegate serialization to
`ciborium`, an external CBOR library.  The byte format is modelled from
the spec (§4.3, §6): a self-describing tagged union — a unit variant is a
CBOR text string of the variant name, a payload variant a one-entry CBOR
map from the variant name to the payload; structs are CBOR maps with
field names in declaration order; sequences are CBOR arrays; integers use
the canonical minimal-length CBOR head; opaque wide values (hashes,
targets, UUIDs, keys, the symbolic signature fields) are CBOR byte
strings; node addresses are UTF-8 text.  Bytes are naturals below 256. -/

/-- The CBOR head: major type (0–7) and the canonical minimal-length
argument encoding. -/
def encHead (m a : Nat) : List Nat :=
  if a < 24 then [32 * m + a]
  else if a < 256 then [32 * m + 24, a]
  else if a < 65536 then [32 * m + 25, a / 256, a % 256]
  else if a < 4294967296 then
    [32 * m + 26, a / 16777216, a / 65536 % 256, a / 256 % 256, a % 256]
  else
    [32 * m + 27, a / 72057594037927936, a / 281474976710656 % 256,
      a / 1099511627776 % 256, a / 4294967296 % 256, a / 16777216 % 256,
      a / 65536 % 256, a / 256 % 256, a % 256]

/-- Parse a CBOR head, returning the major type, the argument and the
remaining bytes. -/
def parseHead : List Nat → Option ((Nat × Nat) × List Nat)
  | [] => none
  | ib :: rest =>
    if ib % 32 < 24 then some ((ib / 32, ib % 32), rest)
    else if ib % 32 = 24 then
      match rest with
      | b0 :: r => some ((ib / 32, b0), r)
      | [] => none
    else if ib % 32 = 25 then
      match rest with
      | b0 :: b1 :: r => some ((ib / 32, 256 * b0 + b1), r)
      | _ => none
    else if ib % 32 = 26 then
      match rest with
      | b0 :: b1 :: b2 :: b3 :: r =>
        some ((ib / 32, 16777216 * b0 + 65536 * b1 + 256 * b2 + b3), r)
      | _ => none
    else if ib % 32 = 27 then
      match rest with
      | b0 :: b1 :: b2 :: b3 :: b4 :: b5 :: b6 :: b7 :: r =>
        some ((ib / 32, 72057594037927936 * b0 + 281474976710656 * b1 +
          1099511627776 * b2 + 4294967296 * b3 + 16777216 * b4 + 65536 * b5 +
          256 * b6 + b7), r)
      | _ => none
    else none

theorem parseHead_encHead (m a : Nat) (_hm : m < 8) (ha : a < 18446744073709551616)
    (r : List Nat) : parseHead (encHead m a ++ r) = some ((m, a), r) := by
  unfold encHead
  split
  · rename_i h1
    show parseHead ((32 * m + a) :: r) = _
    simp only [parseHead]
    have e1 : (32 * m + a) % 32 = a := by omega
    have e2 : (32 * m + a) / 32 = m := by omega
    rw [e1, e2, if_pos h1]
  · split
    · rename_i h1 h2
      show parseHead ((32 * m + 24) :: a :: r) = _
      simp only [parseHead]
      have e1 : (32 * m + 24) % 32 = 24 := by omega
      have e2 : (32 * m + 24) / 32 = m := by omega
      rw [e1, e2]
      norm_num
    · split
      · rename_i h1 h2 h3
        show parseHead ((32 * m + 25) :: a / 256 :: a % 256 :: r) = _
        simp only [parseHead]
        have e1 : (32 * m + 25) % 32 = 25 := by omega
        have e2 : (32 * m + 25) / 32 = m := by omega
        rw [e1, e2]
        norm_num
        omega
      · split
        · rename_i h1 h2 h3 h4
          show parseHead
            ((32 * m + 26) :: a / 16777216 :: a / 65536 % 256 :: a / 256 % 256 ::
              a % 256 :: r) = _
          simp only [parseHead]
          have e1 : (32 * m + 26) % 32 = 26 := by omega
          have e2 : (32 * m + 26) / 32 = m := by omega
          rw [e1, e2]
          norm_num
          omega
        · rename_i h1 h2 h3 h4
          show parseHead
            ((32 * m + 27) :: a / 72057594037927936 :: a / 281474976710656 % 256 ::
              a / 1099511627776 % 256 :: a / 4294967296 % 256 :: a / 16777216 % 256 ::
              a / 65536 % 256 :: a / 256 % 256 :: a % 256 :: r) = _
          simp only [parseHead]
          have e1 : (32 * m + 27) % 32 = 27 := by omega
          have e2 : (32 * m + 27) / 32 = m := by omega
          rw [e1, e2]
          norm_num
          omega

/-- Take exactly `n` bytes. -/
def takeN : Nat → List Nat → Option (List Nat × List Nat)
  | 0, bs => some ([], bs)
  | _ + 1, [] => none
  | n + 1, b :: bs => (takeN n bs).map (fun p => (b :: p.1, p.2))

theorem takeN_append (l r : List Nat) : takeN l.length (l ++ r) = some (l, r) := by
  induction l with
  | nil => rfl
  | cons b rest ih =>
    show (takeN rest.length (rest ++ r)).map _ = _
    rw [ih]
    rfl

/-- Minimal big-endian byte representation of a natural. -/
def natBytes (n : Nat) : List Nat :=
  if h : n = 0 then [] else natBytes (n / 256) ++ [n % 256]
  termination_by n
  decreasing_by exact Nat.div_lt_self (Nat.pos_of_ne_zero h) (by omega)

def bytesToNat (l : List Nat) : Nat := l.foldl (fun acc b => 256 * acc + b) 0

theorem bytesToNat_app (l : List Nat) (b : Nat) :
    bytesToNat (l ++ [b]) = 256 * bytesToNat l + b := by
  simp [bytesToNat, List.foldl_append]

theorem bytesToNat_natBytes (n : Nat) : bytesToNat (natBytes n) = n := by
  induction n using Nat.strong_induction_on with
  | _ n ih =>
    rw [natBytes]
    split
    · simp [bytesToNat]
      omega
    · rename_i h
      rw [bytesToNat_app, ih (n / 256) (Nat.div_lt_self (Nat.pos_of_ne_zero h) (by omega))]
      omega

theorem natBytes_length_le (k : Nat) : ∀ n, n < 256 ^ k → (natBytes n).length ≤ k := by
  induction k with
  | zero =>
    intro n hn
    interval_cases n
    simp [natBytes]
  | succ k ih =>
    intro n hn
    rw [natBytes]
    split
    · simp
    · rename_i h
      have : n / 256 < 256 ^ k := by
        rw [Nat.div_lt_iff_lt_mul (by omega)]
        calc n < 256 ^ (k + 1) := hn
          _ = 256 ^ k * 256 := by ring
      simp only [List.length_append, List.length_singleton]
      have := ih (n / 256) this
      omega

/-- Strip an exact byte prefix. -/
def dropExact : List Nat → List Nat → Option (List Nat)
  | [], bs => some bs
  | _ :: _, [] => none
  | p :: ps, b :: bs => if b = p then dropExact ps bs else none

theorem dropExact_append (p r : List Nat) : dropExact p (p ++ r) = some r := by
  induction p with
  | nil => rfl
  | cons b rest ih =>
    show (if b = b then dropExact rest (rest ++ r) else none) = some r
    rw [if_pos rfl, ih]

/-- Parse exactly `n` occurrences of an element parser. -/
def parseN {alpha : Type} (p : List Nat → Option (alpha × List Nat)) :
    Nat → List Nat → Option (List alpha × List Nat)
  | 0, bs => some ([], bs)
  | n + 1, bs =>
    (p bs).bind (fun ar =>
      (parseN p n ar.2).bind (fun lr => some (ar.1 :: lr.1, lr.2)))

theorem parseN_flat {alpha : Type} (p : List Nat → Option (alpha × List Nat))
    (f : alpha → List Nat) (l : List alpha) (r : List Nat)
    (h : ∀ x ∈ l, ∀ r2, p (f x ++ r2) = some (x, r2)) :
    parseN p l.length (l.flatMap f ++ r) = some (l, r) := by
  induction l with
  | nil => rfl
  | cons x rest ih =>
    have hassoc : (x :: rest).flatMap f ++ r = f x ++ (rest.flatMap f ++ r) := by
      simp
    rw [hassoc]
    show (p (f x ++ (rest.flatMap f ++ r))).bind _ = _
    rw [h x (by simp) (rest.flatMap f ++ r)]
    simp only [Option.some_bind]
    rw [ih (fun y hy r2 => h y (by simp [hy]) r2)]
    rfl

/-- CBOR unsigned integer. -/
def encU (a : Nat) : List Nat := encHead 0 a

def parseU (bs : List Nat) : Option (Nat × List Nat) :=
  (parseHead bs).bind (fun hr => if hr.1.1 = 0 then some (hr.1.2, hr.2) else none)

theorem parseU_enc (a : Nat) (ha : a < 18446744073709551616) (r : List Nat) :
    parseU (encU a ++ r) = some (a, r) := by
  unfold parseU encU
  rw [parseHead_encHead 0 a (by omega) ha]
  rfl

/-- CBOR integer: major 0 for `i ≥ 0`, major 1 encoding `-1-i` otherwise. -/
def encI (i : Int) : List Nat :=
  if 0 ≤ i then encHead 0 i.toNat else encHead 1 (-1 - i).toNat

def parseI (bs : List Nat) : Option (Int × List Nat) :=
  (parseHead bs).bind (fun hr =>
    if hr.1.1 = 0 then some ((hr.1.2 : Int), hr.2)
    else if hr.1.1 = 1 then some (-1 - (hr.1.2 : Int), hr.2)
    else none)

theorem parseI_enc (i : Int) (h1 : -9223372036854775808 ≤ i) (h2 : i < 9223372036854775808)
    (r : List Nat) : parseI (encI i ++ r) = some (i, r) := by
  unfold parseI encI
  split
  · rename_i hpos
    rw [parseHead_encHead 0 _ (by omega) (by omega)]
    simp only [Option.some_bind]
    norm_num
    exact hpos
  · rename_i hneg
    rw [parseHead_encHead 1 _ (by omega) (by omega)]
    simp only [Option.some_bind]
    norm_num
    omega

/-- CBOR byte string holding the minimal big-endian bytes of a natural. -/
def encNatBytes (n : Nat) : List Nat :=
  encHead 2 (natBytes n).length ++ natBytes n

def parseNatBytes (bs : List Nat) : Option (Nat × List Nat) :=
  (parseHead bs).bind (fun hr =>
    if hr.1.1 = 2 then
      (takeN hr.1.2 hr.2).bind (fun tr => some (bytesToNat tr.1, tr.2))
    else none)

theorem parseNatBytes_enc (n : Nat)
    (hn : n < 115792089237316195423570985008687907853269984665640564039457584007913129639936)
    (r : List Nat) : parseNatBytes (encNatBytes n ++ r) = some (n, r) := by
  have hlen : (natBytes n).length ≤ 32 := natBytes_length_le 32 n (by norm_num at hn ⊢; omega)
  unfold parseNatBytes encNatBytes
  rw [List.append_assoc, parseHead_encHead 2 _ (by omega) (by omega)]
  simp only [Option.some_bind, if_pos rfl]
  rw [takeN_append]
  simp only [Option.some_bind]
  rw [bytesToNat_natBytes]
  simp

/-- CBOR booleans `0xf4` / `0xf5`. -/
def encBool (b : Bool) : List Nat := if b then [245] else [244]

def parseBool : List Nat → Option (Bool × List Nat)
  | 244 :: r => some (false, r)
  | 245 :: r => some (true, r)
  | _ => none

theorem parseBool_enc (b : Bool) (r : List Nat) : parseBool (encBool b ++ r) = some (b, r) := by
  cases b <;> rfl

/-- CBOR text string from raw UTF-8 bytes. -/
def encTextB (bs : List Nat) : List Nat := encHead 3 bs.length ++ bs

def parseTextB (bs : List Nat) : Option (List Nat × List Nat) :=
  (parseHead bs).bind (fun hr => if hr.1.1 = 3 then takeN hr.1.2 hr.2 else none)

theorem parseTextB_enc (l : List Nat) (hl : l.length < 18446744073709551616)
    (r : List Nat) : parseTextB (encTextB l ++ r) = some (l, r) := by
  unfold parseTextB encTextB
  rw [List.append_assoc, parseHead_encHead 3 _ (by omega) hl]
  simp only [Option.some_bind, if_pos rfl]
  exact takeN_append l r

/-- The UTF-8 bytes of an ASCII name. -/
def strBytes (s : String) : List Nat := s.data.map Char.toNat

/-- A CBOR text string holding a variant or field name. -/
def encName (s : String) : List Nat := encTextB (strBytes s)

/-- CBOR array of `l.length` elements. -/
def encArrOf {alpha : Type} (f : alpha → List Nat) (l : List alpha) : List Nat :=
  encHead 4 l.length ++ l.flatMap f

def parseArrOf {alpha : Type} (p : List Nat → Option (alpha × List Nat))
    (bs : List Nat) : Option (List alpha × List Nat) :=
  (parseHead bs).bind (fun hr => if hr.1.1 = 4 then parseN p hr.1.2 hr.2 else none)

theorem parseArrOf_enc {alpha : Type} (p : List Nat → Option (alpha × List Nat))
    (f : alpha → List Nat) (l : List alpha) (r : List Nat)
    (hl : l.length < 18446744073709551616)
    (h : ∀ x ∈ l, ∀ r2, p (f x ++ r2) = some (x, r2)) :
    parseArrOf p (encArrOf f l ++ r) = some (l, r) := by
  unfold parseArrOf encArrOf
  rw [List.append_assoc, parseHead_encHead 4 _ (by omega) hl]
  simp only [Option.some_bind, if_pos rfl]
  exact parseN_flat p f l r h

/-- `network.rs` `Message`: the fifteen-variant tagged union.  `PublicKey`
values are opaque (`Nat`), node addresses are UTF-8 byte lists, `u32` /
`usize` are `Nat`, `i32` is `Int`. -/
inductive Message where
  | FetchUTXOs (key : Nat)
  | UTXOs (l : List (TransactionOutput × Bool))
  | SubmitTransaction (tx : Transaction)
  | NewTransaction (tx : Transaction)
  | FetchTemplate (key : Nat)
  | Template (b : Block)
  | ValidateTemplate (b : Block)
  | TemplateValidity (v : Bool)
  | SubmitTemplate (b : Block)
  | DiscoverNodes
  | NodeList (ns : List (List Nat))
  | AskDifference (h : Nat)
  | Difference (d : Int)
  | FetchBlock (h : Nat)
  | NewBlock (b : Block)
deriving DecidableEq, Repr

/-! Struct encodings: CBOR maps with field names in declaration order. -/

def wireSig (s : Signature) : List Nat :=
  encHead 5 2 ++ encName "sigOf" ++ encNatBytes s.sigOf
    ++ encName "signer" ++ encNatBytes s.signer

def parseSigW (bs : List Nat) : Option (Signature × List Nat) :=
  (dropExact (encHead 5 2) bs).bind (fun r0 =>
  (dropExact (encName "sigOf") r0).bind (fun r1 =>
  (parseNatBytes r1).bind (fun p1 =>
  (dropExact (encName "signer") p1.2).bind (fun r2 =>
  (parseNatBytes r2).bind (fun p2 =>
  some (⟨p1.1, p2.1⟩, p2.2))))))

def wireInput (i : TransactionInput) : List Nat :=
  encHead 5 2 ++ encName "prev_tx_output_hash" ++ encNatBytes i.prev_tx_output_hash
    ++ encName "signature" ++ wireSig i.signature

def parseInputW (bs : List Nat) : Option (TransactionInput × List Nat) :=
  (dropExact (encHead 5 2) bs).bind (fun r0 =>
  (dropExact (encName "prev_tx_output_hash") r0).bind (fun r1 =>
  (parseNatBytes r1).bind (fun p1 =>
  (dropExact (encName "signature") p1.2).bind (fun r2 =>
  (parseSigW r2).bind (fun p2 =>
  some (⟨p1.1, p2.1⟩, p2.2))))))

def wireOutput (o : TransactionOutput) : List Nat :=
  encHead 5 3 ++ encName "value" ++ encU o.value
    ++ encName "unique_id" ++ encNatBytes o.unique_id
    ++ encName "pubkey" ++ encNatBytes o.pubkey

def parseOutputW (bs : List Nat) : Option (TransactionOutput × List Nat) :=
  (dropExact (encHead 5 3) bs).bind (fun r0 =>
  (dropExact (encName "value") r0).bind (fun r1 =>
  (parseU r1).bind (fun p1 =>
  (dropExact (encName "unique_id") p1.2).bind (fun r2 =>
  (parseNatBytes r2).bind (fun p2 =>
  (dropExact (encName "pubkey") p2.2).bind (fun r3 =>
  (parseNatBytes r3).bind (fun p3 =>
  some (⟨p1.1, p2.1, p3.1⟩, p3.2))))))))

def wireTx (t : Transaction) : List Nat :=
  encHead 5 2 ++ encName "inputs" ++ encArrOf wireInput t.inputs
    ++ encName "outputs" ++ encArrOf wireOutput t.outputs

def parseTxW (bs : List Nat) : Option (Transaction × List Nat) :=
  (dropExact (encHead 5 2) bs).bind (fun r0 =>
  (dropExact (encName "inputs") r0).bind (fun r1 =>
  (parseArrOf parseInputW r1).bind (fun p1 =>
  (dropExact (encName "outputs") p1.2).bind (fun r2 =>
  (parseArrOf parseOutputW r2).bind (fun p2 =>
  some (⟨p1.1, p2.1⟩, p2.2))))))

def wireHeader (h : BlockHeader) : List Nat :=
  encHead 5 5 ++ encName "timestamp" ++ encI h.timestamp
    ++ encName "nonce" ++ encU h.nonce
    ++ encName "prev_block_hash" ++ encNatBytes h.prev_block_hash
    ++ encName "merkle_root" ++ encNatBytes h.merkle_root
    ++ encName "target" ++ encNatBytes h.target

def parseHeaderW (bs : List Nat) : Option (BlockHeader × List Nat) :=
  (dropExact (encHead 5 5) bs).bind (fun r0 =>
  (dropExact (encName "timestamp") r0).bind (fun r1 =>
  (parseI r1).bind (fun p1 =>
  (dropExact (encName "nonce") p1.2).bind (fun r2 =>
  (parseU r2).bind (fun p2 =>
  (dropExact (encName "prev_block_hash") p2.2).bind (fun r3 =>
  (parseNatBytes r3).bind (fun p3 =>
  (dropExact (encName "merkle_root") p3.2).bind (fun r4 =>
  (parseNatBytes r4).bind (fun p4 =>
  (dropExact (encName "target") p4.2).bind (fun r5 =>
  (parseNatBytes r5).bind (fun p5 =>
  some (⟨p1.1, p2.1, p3.1, p4.1, p5.1⟩, p5.2))))))))))))

def wireBlock (b : Block) : List Nat :=
  encHead 5 2 ++ encName "header" ++ wireHeader b.header
    ++ encName "transactions" ++ encArrOf wireTx b.transactions

def parseBlockW (bs : List Nat) : Option (Block × List Nat) :=
  (dropExact (encHead 5 2) bs).bind (fun r0 =>
  (dropExact (encName "header") r0).bind (fun r1 =>
  (parseHeaderW r1).bind (fun p1 =>
  (dropExact (encName "transactions") p1.2).bind (fun r2 =>
  (parseArrOf parseTxW r2).bind (fun p2 =>
  some (⟨p1.1, p2.1⟩, p2.2))))))

def wirePairOB (p : TransactionOutput × Bool) : List Nat :=
  encHead 4 2 ++ wireOutput p.1 ++ encBool p.2

def parsePairOB (bs : List Nat) : Option ((TransactionOutput × Bool) × List Nat) :=
  (dropExact (encHead 4 2) bs).bind (fun r0 =>
  (parseOutputW r0).bind (fun p1 =>
  (parseBool p1.2).bind (fun p2 =>
  some ((p1.1, p2.1), p2.2))))

/-! Well-formedness: the Rust-representable value ranges (u64 fields below
`2^64`, 256-bit opaque values below `2^256`, i64 timestamps, i32
differences, u32 heights, list lengths below `2^64`). -/

def WFoutput (o : TransactionOutput) : Prop :=
  o.value < 2 ^ 64 ∧ o.unique_id < 2 ^ 256 ∧ o.pubkey < 2 ^ 256

def WFsig (s : Signature) : Prop := s.sigOf < 2 ^ 256 ∧ s.signer < 2 ^ 256

def WFinput (i : TransactionInput) : Prop :=
  i.prev_tx_output_hash < 2 ^ 256 ∧ WFsig i.signature

def WFtx (t : Transaction) : Prop :=
  t.inputs.length < 2 ^ 64 ∧ t.outputs.length < 2 ^ 64 ∧
    (∀ i ∈ t.inputs, WFinput i) ∧ (∀ o ∈ t.outputs, WFoutput o)

def WFheader (h : BlockHeader) : Prop :=
  -(2 ^ 63) ≤ h.timestamp ∧ h.timestamp < 2 ^ 63 ∧ h.nonce < 2 ^ 64 ∧
    h.prev_block_hash < 2 ^ 256 ∧ h.merkle_root < 2 ^ 256 ∧ h.target < 2 ^ 256

def WFblock (b : Block) : Prop :=
  WFheader b.header ∧ b.transactions.length < 2 ^ 64 ∧ ∀ t ∈ b.transactions, WFtx t

def WFmessage : Message → Prop
  | .FetchUTXOs k => k < 2 ^ 256
  | .UTXOs l => l.length < 2 ^ 64 ∧ ∀ p ∈ l, WFoutput p.1
  | .SubmitTransaction t => WFtx t
  | .NewTransaction t => WFtx t
  | .FetchTemplate k => k < 2 ^ 256
  | .Template b => WFblock b
  | .ValidateTemplate b => WFblock b
  | .TemplateValidity _ => True
  | .SubmitTemplate b => WFblock b
  | .DiscoverNodes => True
  | .NodeList ns => ns.length < 2 ^ 64 ∧ ∀ s ∈ ns, s.length < 2 ^ 64
  | .AskDifference n => n < 2 ^ 32
  | .Difference d => -(2 ^ 31) ≤ d ∧ d < 2 ^ 31
  | .FetchBlock n => n < 2 ^ 64
  | .NewBlock b => WFblock b

/-- `Message::encode`: CBOR bytes of the tagged value. -/
def Message.encode : Message → List Nat
  | .FetchUTXOs k => encHead 5 1 ++ encName "FetchUTXOs" ++ encNatBytes k
  | .UTXOs l => encHead 5 1 ++ encName "UTXOs" ++ encArrOf wirePairOB l
  | .SubmitTransaction t => encHead 5 1 ++ encName "SubmitTransaction" ++ wireTx t
  | .NewTransaction t => encHead 5 1 ++ encName "NewTransaction" ++ wireTx t
  | .FetchTemplate k => encHead 5 1 ++ encName "FetchTemplate" ++ encNatBytes k
  | .Template b => encHead 5 1 ++ encName "Template" ++ wireBlock b
  | .ValidateTemplate b => encHead 5 1 ++ encName "ValidateTemplate" ++ wireBlock b
  | .TemplateValidity v => encHead 5 1 ++ encName "TemplateValidity" ++ encBool v
  | .SubmitTemplate b => encHead 5 1 ++ encName "SubmitTemplate" ++ wireBlock b
  | .DiscoverNodes => encName "DiscoverNodes"
  | .NodeList ns => encHead 5 1 ++ encName "NodeList" ++ encArrOf encTextB ns
  | .AskDifference n => encHead 5 1 ++ encName "AskDifference" ++ encU n
  | .Difference d => encHead 5 1 ++ encName "Difference" ++ encI d
  | .FetchBlock n => encHead 5 1 ++ encName "FetchBlock" ++ encU n
  | .NewBlock b => encHead 5 1 ++ encName "NewBlock" ++ wireBlock b

/-- Payload dispatch by variant name (declaration order). -/
def parsePayload (name : List Nat) (bs : List Nat) : Option (Message × List Nat) :=
  if name = strBytes "FetchUTXOs" then
    (parseNatBytes bs).map (fun p => (Message.FetchUTXOs p.1, p.2))
  else if name = strBytes "UTXOs" then
    (parseArrOf parsePairOB bs).map (fun p => (Message.UTXOs p.1, p.2))
  else if name = strBytes "SubmitTransaction" then
    (parseTxW bs).map (fun p => (Message.SubmitTransaction p.1, p.2))
  else if name = strBytes "NewTransaction" then
    (parseTxW bs).map (fun p => (Message.NewTransaction p.1, p.2))
  else if name = strBytes "FetchTemplate" then
    (parseNatBytes bs).map (fun p => (Message.FetchTemplate p.1, p.2))
  else if name = strBytes "Template" then
    (parseBlockW bs).map (fun p => (Message.Template p.1, p.2))
  else if name = strBytes "ValidateTemplate" then
    (parseBlockW bs).map (fun p => (Message.ValidateTemplate p.1, p.2))
  else if name = strBytes "TemplateValidity" then
    (parseBool bs).map (fun p => (Message.TemplateValidity p.1, p.2))
  else if name = strBytes "SubmitTemplate" then
    (parseBlockW bs).map (fun p => (Message.SubmitTemplate p.1, p.2))
  else if name = strBytes "NodeList" then
    (parseArrOf parseTextB bs).map (fun p => (Message.NodeList p.1, p.2))
  else if name = strBytes "AskDifference" then
    (parseU bs).map (fun p => (Message.AskDifference p.1, p.2))
  else if name = strBytes "Difference" then
    (parseI bs).map (fun p => (Message.Difference p.1, p.2))
  else if name = strBytes "FetchBlock" then
    (parseU bs).map (fun p => (Message.FetchBlock p.1, p.2))
  else if name = strBytes "NewBlock" then
    (parseBlockW bs).map (fun p => (Message.NewBlock p.1, p.2))
  else none

/-- The top-level tagged-value parse: a text string is a unit variant, a
one-entry map holds a named payload. -/
def parseTagged (m n : Nat) (r : List Nat) : Option (Message × List Nat) :=
  if m = 3 then
    (takeN n r).bind (fun nr =>
      if nr.1 = strBytes "DiscoverNodes" then some (.DiscoverNodes, nr.2) else none)
  else if m = 5 then
    if n = 1 then
      (parseHead r).bind (fun hr =>
        if hr.1.1 = 3 then
          (takeN hr.1.2 hr.2).bind (fun nr => parsePayload nr.1 nr.2)
        else none)
    else none
  else none

def parseMessage (bs : List Nat) : Option (Message × List Nat) :=
  (parseHead bs).bind (fun hr => parseTagged hr.1.1 hr.1.2 hr.2)

/-- `Message::decode`: read one CBOR value off the byte string. -/
def Message.decode (bs : List Nat) : Option Message :=
  (parseMessage bs).map (fun p => p.1)

/-! Round trips, leaves to `Message`. -/

theorem parseSigW_enc (s : Signature) (h : WFsig s) (r : List Nat) :
    parseSigW (wireSig s ++ r) = some (s, r) := by
  obtain ⟨h1, h2⟩ := h
  unfold wireSig parseSigW
  simp only [List.append_assoc, dropExact_append, Option.some_bind,
    parseNatBytes_enc _ h1, parseNatBytes_enc _ h2]

theorem parseInputW_enc (i : TransactionInput) (h : WFinput i) (r : List Nat) :
    parseInputW (wireInput i ++ r) = some (i, r) := by
  obtain ⟨h1, h2⟩ := h
  unfold wireInput parseInputW
  simp only [List.append_assoc, dropExact_append, Option.some_bind,
    parseNatBytes_enc _ h1, parseSigW_enc _ h2]

theorem parseOutputW_enc (o : TransactionOutput) (h : WFoutput o) (r : List Nat) :
    parseOutputW (wireOutput o ++ r) = some (o, r) := by
  obtain ⟨h1, h2, h3⟩ := h
  unfold wireOutput parseOutputW
  simp only [List.append_assoc, dropExact_append, Option.some_bind,
    parseU_enc _ h1, parseNatBytes_enc _ h2, parseNatBytes_enc _ h3]

theorem parseTxW_enc (t : Transaction) (h : WFtx t) (r : List Nat) :
    parseTxW (wireTx t ++ r) = some (t, r) := by
  obtain ⟨h1, h2, h3, h4⟩ := h
  have hIn : ∀ r2, parseArrOf parseInputW (encArrOf wireInput t.inputs ++ r2) =
      some (t.inputs, r2) :=
    fun r2 => parseArrOf_enc _ _ _ r2 h1 (fun x hx r3 => parseInputW_enc x (h3 x hx) r3)
  have hOut : ∀ r2, parseArrOf parseOutputW (encArrOf wireOutput t.outputs ++ r2) =
      some (t.outputs, r2) :=
    fun r2 => parseArrOf_enc _ _ _ r2 h2 (fun x hx r3 => parseOutputW_enc x (h4 x hx) r3)
  unfold wireTx parseTxW
  simp only [List.append_assoc, dropExact_append, Option.some_bind, hIn, hOut]

theorem parseHeaderW_enc (h : BlockHeader) (hw : WFheader h) (r : List Nat) :
    parseHeaderW (wireHeader h ++ r) = some (h, r) := by
  obtain ⟨h1, h2, h3, h4, h5, h6⟩ := hw
  unfold wireHeader parseHeaderW
  simp only [List.append_assoc, dropExact_append, Option.some_bind,
    parseI_enc _ h1 h2, parseU_enc _ h3, parseNatBytes_enc _ h4,
    parseNatBytes_enc _ h5, parseNatBytes_enc _ h6]

theorem parseBlockW_enc (b : Block) (hw : WFblock b) (r : List Nat) :
    parseBlockW (wireBlock b ++ r) = some (b, r) := by
  obtain ⟨h1, h2, h3⟩ := hw
  have hTx : ∀ r2, parseArrOf parseTxW (encArrOf wireTx b.transactions ++ r2) =
      some (b.transactions, r2) :=
    fun r2 => parseArrOf_enc _ _ _ r2 h2 (fun x hx r3 => parseTxW_enc x (h3 x hx) r3)
  unfold wireBlock parseBlockW
  simp only [List.append_assoc, dropExact_append, Option.some_bind,
    parseHeaderW_enc _ h1, hTx]

theorem parsePairOB_enc (p : TransactionOutput × Bool) (h : WFoutput p.1) (r : List Nat) :
    parsePairOB (wirePairOB p ++ r) = some (p, r) := by
  unfold wirePairOB parsePairOB
  simp only [List.append_assoc, dropExact_append, Option.some_bind,
    parseOutputW_enc _ h, parseBool_enc]

/-- Parsing a tagged payload variant reduces to its payload parser. -/
theorem parseMessage_tagged (s : String) (rest : List Nat)
    (hlen : (strBytes s).length < 18446744073709551616) :
    parseMessage (encHead 5 1 ++ (encName s ++ rest)) = parsePayload (strBytes s) rest := by
  unfold parseMessage
  rw [parseHead_encHead 5 1 (by omega) (by omega)]
  simp only [Option.some_bind]
  unfold parseTagged
  rw [if_neg (by decide), if_pos rfl, if_pos rfl]
  have h2 : parseHead (encName s ++ rest) =
      some ((3, (strBytes s).length), strBytes s ++ rest) := by
    unfold encName encTextB
    rw [List.append_assoc]
    exact parseHead_encHead 3 _ (by omega) hlen (strBytes s ++ rest)
  rw [h2]
  simp only [Option.some_bind, if_true]
  rw [takeN_append]
  simp only [Option.some_bind]

/-- Parsing the unit variant. -/
theorem parseMessage_discover (rest : List Nat) :
    parseMessage (encName "DiscoverNodes" ++ rest) = some (.DiscoverNodes, rest) := by
  unfold parseMessage
  have h2 : parseHead (encName "DiscoverNodes" ++ rest) =
      some ((3, (strBytes "DiscoverNodes").length), strBytes "DiscoverNodes" ++ rest) := by
    unfold encName encTextB
    rw [List.append_assoc]
    exact parseHead_encHead 3 _ (by omega) (by decide) (strBytes "DiscoverNodes" ++ rest)
  rw [h2]
  simp only [Option.some_bind]
  unfold parseTagged
  rw [if_pos rfl, takeN_append]
  simp only [Option.some_bind]
  simp

/-- `decode ∘ encode` with an explicit byte tail. -/
theorem parseMessage_enc (m : Message) (h : WFmessage m) (r : List Nat) :
    parseMessage (Message.encode m ++ r) = some (m, r) := by
  cases m with
  | FetchUTXOs k =>
    show parseMessage (encHead 5 1 ++ encName "FetchUTXOs" ++ encNatBytes k ++ r) = _
    simp only [List.append_assoc]
    rw [parseMessage_tagged _ _ (by decide)]
    unfold parsePayload
    rw [if_pos rfl, parseNatBytes_enc _ h]
    rfl
  | UTXOs l =>
    obtain ⟨h1, h2⟩ := h
    show parseMessage (encHead 5 1 ++ encName "UTXOs" ++ encArrOf wirePairOB l ++ r) = _
    simp only [List.append_assoc]
    rw [parseMessage_tagged _ _ (by decide)]
    unfold parsePayload
    rw [if_neg (by decide), if_pos rfl]
    rw [parseArrOf_enc _ _ _ r h1 (fun x hx r3 => parsePairOB_enc x (h2 x hx) r3)]
    rfl
  | SubmitTransaction t =>
    show parseMessage (encHead 5 1 ++ encName "SubmitTransaction" ++ wireTx t ++ r) = _
    simp only [List.append_assoc]
    rw [parseMessage_tagged _ _ (by decide)]
    unfold parsePayload
    rw [if_neg (by decide), if_neg (by decide), if_pos rfl, parseTxW_enc _ h]
    rfl
  | NewTransaction t =>
    show parseMessage (encHead 5 1 ++ encName "NewTransaction" ++ wireTx t ++ r) = _
    simp only [List.append_assoc]
    rw [parseMessage_tagged _ _ (by decide)]
    unfold parsePayload
    rw [if_neg (by decide), if_neg (by decide), if_neg (by decide), if_pos rfl,
      parseTxW_enc _ h]
    rfl
  | FetchTemplate k =>
    show parseMessage (encHead 5 1 ++ encName "FetchTemplate" ++ encNatBytes k ++ r) = _
    simp only [List.append_assoc]
    rw [parseMessage_tagged _ _ (by decide)]
    unfold parsePayload
    rw [if_neg (by decide), if_neg (by decide), if_neg (by decide), if_neg (by decide),
      if_pos rfl, parseNatBytes_enc _ h]
    rfl
  | Template b =>
    show parseMessage (encHead 5 1 ++ encName "Template" ++ wireBlock b ++ r) = _
    simp only [List.append_assoc]
    rw [parseMessage_tagged _ _ (by decide)]
    unfold parsePayload
    rw [if_neg (by decide), if_neg (by decide), if_neg (by decide), if_neg (by decide),
      if_neg (by decide), if_pos rfl, parseBlockW_enc _ h]
    rfl
  | ValidateTemplate b =>
    show parseMessage (encHead 5 1 ++ encName "ValidateTemplate" ++ wireBlock b ++ r) = _
    simp only [List.append_assoc]
    rw [parseMessage_tagged _ _ (by decide)]
    unfold parsePayload
    rw [if_neg (by decide), if_neg (by decide), if_neg (by decide), if_neg (by decide),
      if_neg (by decide), if_neg (by decide), if_pos rfl, parseBlockW_enc _ h]
    rfl
  | TemplateValidity v =>
    show parseMessage (encHead 5 1 ++ encName "TemplateValidity" ++ encBool v ++ r) = _
    simp only [List.append_assoc]
    rw [parseMessage_tagged _ _ (by decide)]
    unfold parsePayload
    rw [if_neg (by decide), if_neg (by decide), if_neg (by decide), if_neg (by decide),
      if_neg (by decide), if_neg (by decide), if_neg (by decide), if_pos rfl,
      parseBool_enc]
    rfl
  | SubmitTemplate b =>
    show parseMessage (encHead 5 1 ++ encName "SubmitTemplate" ++ wireBlock b ++ r) = _
    simp only [List.append_assoc]
    rw [parseMessage_tagged _ _ (by decide)]
    unfold parsePayload
    rw [if_neg (by decide), if_neg (by decide), if_neg (by decide), if_neg (by decide),
      if_neg (by decide), if_neg (by decide), if_neg (by decide), if_neg (by decide),
      if_pos rfl, parseBlockW_enc _ h]
    rfl
  | DiscoverNodes =>
    show parseMessage (encName "DiscoverNodes" ++ r) = _
    exact parseMessage_discover r
  | NodeList ns =>
    obtain ⟨h1, h2⟩ := h
    show parseMessage (encHead 5 1 ++ encName "NodeList" ++ encArrOf encTextB ns ++ r) = _
    simp only [List.append_assoc]
    rw [parseMessage_tagged _ _ (by decide)]
    unfold parsePayload
    rw [if_neg (by decide), if_neg (by decide), if_neg (by decide), if_neg (by decide),
      if_neg (by decide), if_neg (by decide), if_neg (by decide), if_neg (by decide),
      if_neg (by decide), if_pos rfl]
    rw [parseArrOf_enc _ _ _ r h1
      (fun x hx r3 => parseTextB_enc x (by have := h2 x hx; omega) r3)]
    rfl
  | AskDifference n =>
    show parseMessage (encHead 5 1 ++ encName "AskDifference" ++ encU n ++ r) = _
    simp only [List.append_assoc]
    rw [parseMessage_tagged _ _ (by decide)]
    unfold parsePayload
    rw [if_neg (by decide), if_neg (by decide), if_neg (by decide), if_neg (by decide),
      if_neg (by decide), if_neg (by decide), if_pos rfl]
    have hn : n < 2 ^ 32 := h
    rw [parseU_enc _ (by omega)]
    rfl
  | Difference d =>
    obtain ⟨h1, h2⟩ := h
    show parseMessage (encHead 5 1 ++ encName "Difference" ++ encI d ++ r) = _
    simp only [List.append_assoc]
    rw [parseMessage_tagged _ _ (by decide)]
    unfold parsePayload
    rw [if_neg (by decide), if_neg (by decide), if_neg (by decide), if_neg (by decide),
      if_neg (by decide), if_neg (by decide), if_neg (by decide), if_neg (by decide),
      if_neg (by decide), if_neg (by decide), if_neg (by decide), if_pos rfl,
      parseI_enc _ (by omega) (by omega)]
    rfl
  | FetchBlock n =>
    show parseMessage (encHead 5 1 ++ encName "FetchBlock" ++ encU n ++ r) = _
    simp only [List.append_assoc]
    rw [parseMessage_tagged _ _ (by decide)]
    unfold parsePayload
    rw [if_neg (by decide), if_neg (by decide), if_neg (by decide), if_neg (by decide),
      if_neg (by decide), if_neg (by decide), if_neg (by decide), if_neg (by decide),
      if_neg (by decide), if_neg (by decide), if_neg (by decide), if_neg (by decide),
      if_pos rfl]
    have hn : n < 2 ^ 64 := h
    rw [parseU_enc _ (by omega)]
    rfl
  | NewBlock b =>
    show parseMessage (encHead 5 1 ++ encName "NewBlock" ++ wireBlock b ++ r) = _
    simp only [List.append_assoc]
    rw [parseMessage_tagged _ _ (by decide)]
    unfold parsePayload
    rw [if_neg (by decide), if_neg (by decide), if_neg (by decide), if_neg (by decide),
      if_neg (by decide), if_neg (by decide), if_neg (by decide), if_neg (by decide),
      if_neg (by decide), if_neg (by decide), if_neg (by decide), if_neg (by decide),
      if_neg (by decide), if_pos rfl, parseBlockW_enc _ h]
    rfl

/-- C9: wire round-trip — for every `Message` value (all fifteen variants)
whose numeric fields lie in the Rust-representable ranges,
`Message::decode (Message::encode m) = m`. -/
theorem C9_wire_roundtrip (m : Message) (h : WFmessage m) :
    Message.decode (Message.encode m) = some m := by
  have hp := parseMessage_enc m h []
  rw [List.append_nil] at hp
  unfold Message.decode
  rw [hp]
  rfl

/-- Concrete round trips: the unit variant and a block-carrying variant. -/
theorem C9_wire_roundtrip_witness :
    Message.decode (Message.encode .DiscoverNodes) = some .DiscoverNodes ∧
    Message.decode (Message.encode (.NewBlock gBlock)) = some (.NewBlock gBlock) := by
  constructor
  · exact C9_wire_roundtrip .DiscoverNodes trivial
  · apply C9_wire_roundtrip (.NewBlock gBlock)
    show WFblock gBlock
    refine ⟨⟨by decide, by decide, by decide, by decide, by decide, by decide⟩,
      by decide, ?_⟩
    intro t ht
    have ht2 : t = txT := by
      simpa [gBlock] using ht
    rw [ht2]
    refine ⟨by decide, by decide, ?_, ?_⟩
    · intro i hi
      simp [txT] at hi
    · intro o ho
      have ho2 : o = outT := by
        simpa [txT] using ho
      rw [ho2]
      exact ⟨by decide, by decide, by decide⟩

end RsBtc




